import Mathlib

/-!
# Verification of the p-variation algorithm (`p_var_real.cpp`)

Shallow embedding of the C++ program computing the p-variation of a
real-valued sequence.  Machine doubles are modelled by rationals and the
real exponent `p ≥ 1` by a natural exponent, so that every definition is
executable; out-of-bounds vector accesses (undefined behaviour in C++)
are modelled by `Option`, and the unstructured `while` loops carry
explicit fuel.  `pvarO` returns `none` exactly when a loop would exceed
its fuel bound or an access would be out of bounds.
-/

namespace p_var_real

/-- `struct pointdata { size_t prev, next; double pvdiff; }` -/
structure pointdata where
  prev : Nat
  next : Nat
  pvdiff : ℚ
deriving DecidableEq, Repr

/-- `typedef std::vector<double> NumericVector` (host vector of reals). -/
abbrev NumericVector := Array ℚ

/-- `typedef std::vector<pointdata> DoublyLinkedList` -/
abbrev DoublyLinkedList := Array pointdata

/-- Total read of a link record (used only in specifications/invariants;
the algorithm itself reads through the checked `Array.get?`). -/
def getp (links : DoublyLinkedList) (i : Nat) : pointdata :=
  links.getD i ⟨0, 0, 0⟩

/-- Checked in-place field update `links[i] = f links[i]`; `none` models the
undefined behaviour of an out-of-bounds `std::vector` write. -/
def modifyL (links : DoublyLinkedList) (i : Nat) (f : pointdata → pointdata) :
    Option DoublyLinkedList :=
  if h : i < links.size then some (links.set ⟨i, h⟩ (f (links.get ⟨i, h⟩))) else none

/-- `double pvar_diff(double diff, double p){ return std::pow(std::abs(diff), p); }` -/
def pvar_diff (diff : ℚ) (p : Nat) : ℚ := |diff| ^ p

/-- Loop state of `DetectLocalExtrema`: `last_extremum`, `direction`, and the
links vector being mutated. -/
structure DLEState where
  last_extremum : Nat
  direction : Int
  links : DoublyLinkedList

/-- The direction/new-extremum update of one `DetectLocalExtrema` scan step
(the `if (j != n) { ... } else { new_extremum = true }` block). -/
def DLEdecide (x : NumericVector) (dir : Int) (xi : ℚ) (i : Nat) : Option (Bool × Int) :=
  if i + 1 ≠ x.size then do
    let xj ← x.get? (i + 1)
    if xi < xj then
      pure (dir == -1, (1 : Int))
    else if xj < xi then
      pure (dir == 1, (-1 : Int))
    else
      pure (false, dir)
  else
    pure (true, dir)

/-- One iteration (index `i`) of the `for` loop of `DetectLocalExtrema`. -/
def DLEstep (x : NumericVector) (p : Nat) (s : DLEState) (i : Nat) : Option DLEState := do
  let xi ← x.get? i
  let nd ← DLEdecide x s.direction xi i
  if nd.1 then do
    let xl ← x.get? s.last_extremum
    let l1 ← modifyL s.links s.last_extremum (fun d => { d with next := i })
    let l2 ← modifyL l1 i (fun d =>
      { d with prev := s.last_extremum, pvdiff := pvar_diff (xi - xl) p })
    pure ⟨i, nd.2, l2⟩
  else
    pure ⟨s.last_extremum, nd.2, s.links⟩

/-- `void DetectLocalExtrema(const NumericVector& x, DoublyLinkedList& links, double p)`:
initialises the head and tail records, then scans for local extrema. -/
def DetectLocalExtrema (x : NumericVector) (links : DoublyLinkedList) (p : Nat) :
    Option DoublyLinkedList := do
  let l1 ← modifyL links 0 (fun d => { d with prev := 0, pvdiff := 0 })
  let l2 ← modifyL l1 (x.size - 1) (fun d => { d with next := x.size })
  let s ← (List.range x.size).foldlM (DLEstep x p) (⟨0, 0, l2⟩ : DLEState)
  pure s.links

/-- Advance `int_end` one edge: `int_end = links[int_end].next; if(int_end == n) return;
csum += links[int_end].pvdiff` — `Sum.inl` is the early return. -/
def advEnd (x : NumericVector) (links : DoublyLinkedList) (csum : ℚ) (e : Nat) :
    Option (DoublyLinkedList ⊕ (ℚ × Nat)) := do
  let d ← links.get? e
  if d.next = x.size then
    pure (Sum.inl links)
  else do
    let d2 ← links.get? d.next
    pure (Sum.inr (csum + d2.pvdiff, d.next))

/-- The backtracking `for(dcount<3)` loop of `CheckShortIntervals`: step
`int_begin` backward while positive, otherwise extend `int_end` forward
(`Sum.inl` = the early `return` at the sentinel). -/
def backtrack (x : NumericVector) (links : DoublyLinkedList) :
    Nat → ℚ → Nat → Nat → Option (Unit ⊕ (ℚ × Nat × Nat))
  | 0, csum, b, e => pure (Sum.inr (csum, b, e))
  | k + 1, csum, b, e =>
    if 0 < b then do
      let d ← links.get? b
      backtrack x links k (csum + d.pvdiff) d.prev e
    else do
      let d ← links.get? e
      if d.next = x.size then
        pure (Sum.inl ())
      else do
        let d2 ← links.get? d.next
        backtrack x links k (csum + d2.pvdiff) b d.next

/-- The main `while(true)` loop of `CheckShortIntervals`, with fuel. -/
def CSIloop (x : NumericVector) (p : Nat) :
    Nat → DoublyLinkedList → ℚ → Nat → Nat → Option DoublyLinkedList
  | 0, _, _, _, _ => none
  | fuel + 1, links, csum, b, e => do
    let xb ← x.get? b
    let xe ← x.get? e
    let fjoinval := pvar_diff (xb - xe) p
    if fjoinval ≤ csum then
      match ← advEnd x links csum e with
      | Sum.inl l => pure l
      | Sum.inr (csum1, e1) => do
        let db ← links.get? b
        let db2 ← links.get? db.next
        CSIloop x p fuel links (csum1 - db2.pvdiff) db.next e1
    else do
      let l1 ← modifyL links b (fun d => { d with next := e })
      let l2 ← modifyL l1 e (fun d => { d with prev := b, pvdiff := fjoinval })
      match ← backtrack x l2 3 0 e e with
      | Sum.inl _ => pure l2
      | Sum.inr (csum2, b2, e2) => CSIloop x p fuel l2 csum2 b2 e2

/-- `void CheckShortIntervals(...)`: build the initial 3-edge window
(early return if the chain is shorter), then run the main loop. -/
def CheckShortIntervals (x : NumericVector) (links : DoublyLinkedList) (p : Nat) :
    Option DoublyLinkedList := do
  match ← advEnd x links 0 0 with
  | Sum.inl l => pure l
  | Sum.inr (c1, e1) =>
    match ← advEnd x links c1 e1 with
    | Sum.inl l => pure l
    | Sum.inr (c2, e2) =>
      match ← advEnd x links c2 e2 with
      | Sum.inl l => pure l
      | Sum.inr (c3, e3) => CSIloop x p (3 * x.size + 3) links c3 0 e3

/-- `struct pvtemppoint { size_t it; double ev; }` -/
structure pvtemppoint where
  it : Nat
  ev : ℚ
deriving DecidableEq, Repr

/-- The backward walk of `Merge2GoodInt` over `[a, v)` collecting the
running-min (`av_mins`) and running-max (`av_maxs`) candidate points. -/
def walkBack (x : NumericVector) (links : DoublyLinkedList) (a : Nat) :
    Nat → Nat → ℚ → ℚ → ℚ → List pvtemppoint → List pvtemppoint →
    Option (List pvtemppoint × List pvtemppoint)
  | 0, _, _, _, _, _, _ => none
  | fuel + 1, prt, ev, amin, amax, mins, maxs =>
    if prt = a then pure (mins, maxs)
    else do
      let d ← links.get? prt
      let ev1 := ev + d.pvdiff
      let xp ← x.get? d.prev
      let (amax1, maxs1) :=
        if amax < xp then (xp, maxs ++ [⟨d.prev, ev1⟩]) else (amax, maxs)
      let (amin1, mins1) :=
        if xp < amin then (xp, mins ++ [⟨d.prev, ev1⟩]) else (amin, mins)
      walkBack x links a fuel d.prev ev1 amin1 amax1 mins1 maxs1

/-- The forward walk of `Merge2GoodInt` over `(v, b]` collecting the
running-min (`vb_mins`) and running-max (`vb_maxs`) candidate points. -/
def walkFwd (x : NumericVector) (links : DoublyLinkedList) (b : Nat) :
    Nat → Nat → ℚ → ℚ → ℚ → List pvtemppoint → List pvtemppoint →
    Option (List pvtemppoint × List pvtemppoint)
  | 0, _, _, _, _, _, _ => none
  | fuel + 1, prt, ev, bmin, bmax, mins, maxs =>
    if prt = b then pure (mins, maxs)
    else do
      let d ← links.get? prt
      let d2 ← links.get? d.next
      let ev1 := ev + d2.pvdiff
      let xp ← x.get? d.next
      let (bmax1, maxs1) :=
        if bmax < xp then (xp, maxs ++ [⟨d.next, ev1⟩]) else (bmax, maxs)
      let (bmin1, mins1) :=
        if xp < bmin then (xp, mins ++ [⟨d.next, ev1⟩]) else (bmin, mins)
      walkFwd x links b fuel d.next ev1 bmin1 bmax1 mins1 maxs1

/-- State of the joint search: `maxbalance`, `takefjoin`, the winning pair
`tait`/`tbit` (as indices into the sequence) and the monotone restart
position `sbit` (as a position in the right-hand candidate list). -/
structure ScanSt where
  maxbalance : ℚ
  takefjoin : ℚ
  tait : Nat
  tbit : Nat
  sbit : Nat
deriving DecidableEq, Repr

/-- Inner loop `for(bit = sbit; bit != end; ++bit)` of the joint search;
`j` is the list position of the head of the remaining right candidates. -/
def scanInner (x : NumericVector) (p : Nat) (apt : pvtemppoint) :
    List pvtemppoint → Nat → ScanSt → Option ScanSt
  | [], _, st => pure st
  | bpt :: rest, j, st => do
    let xa ← x.get? apt.it
    let xb ← x.get? bpt.it
    let fjoin := pvar_diff (xa - xb) p
    let balance := fjoin - bpt.ev - apt.ev
    let st1 := if st.maxbalance < balance then
        (⟨balance, fjoin, apt.it, bpt.it, j⟩ : ScanSt) else st
    scanInner x p apt rest (j + 1) st1

/-- Outer loop `for(ait = ...begin(); ait != end; ++ait)` of the joint
search, restarting the inner loop at the carried position `sbit`. -/
def scanOuter (x : NumericVector) (p : Nat) (bs : List pvtemppoint) :
    List pvtemppoint → ScanSt → Option ScanSt
  | [], st => pure st
  | apt :: rest, st => do
    let st1 ← scanInner x p apt (bs.drop st.sbit) st.sbit st
    scanOuter x p bs rest st1

/-- The lambda `Merge2GoodInt(a, v, b)`: merge the two good intervals
`[a, v]` and `[v, b]`, excising all points between the winning joint
endpoints when a positive balance is found. -/
def Merge2GoodInt (x : NumericVector) (p : Nat) (links : DoublyLinkedList)
    (a v b : Nat) : Option DoublyLinkedList :=
  if a = v ∨ v = b then pure links
  else do
    let xv ← x.get? v
    let (av_mins, av_maxs) ← walkBack x links a (links.size + 1) v 0 xv xv [] []
    let (vb_mins, vb_maxs) ← walkFwd x links b (links.size + 1) v 0 xv xv [] []
    let st1 ← scanOuter x p vb_maxs av_mins ⟨0, 0, 0, 0, 0⟩
    let st2 ← scanOuter x p vb_mins av_maxs { st1 with sbit := 0 }
    if 0 < st2.maxbalance then do
      let l1 ← modifyL links st2.tait (fun d => { d with next := st2.tbit })
      let l2 ← modifyL l1 st2.tbit (fun d =>
        { d with prev := st2.tait, pvdiff := st2.takefjoin })
      pure l2
    else
      pure links

/-- Stage 1 of `MergeIntervalsRecursively`: walk the chain putting every
`LSI`-th surviving node into `IterList`. -/
def buildIter (x : NumericVector) (links : DoublyLinkedList) (LSI : Nat) :
    Nat → Nat → Nat → List Nat → Option (List Nat)
  | 0, _, _, _ => none
  | fuel + 1, it, count, acc =>
    if it < x.size then do
      let acc1 := if count % LSI = 0 then acc ++ [it] else acc
      let d ← links.get? it
      buildIter x links LSI fuel d.next (count + 1) acc1
    else
      pure acc

/-- One pass of the inner merging loop: merge each consecutive triple
`(a, v, b)` of `IterList`, erasing the middle boundary `v` and continuing
from `b`. -/
def mergeRound (x : NumericVector) (p : Nat) :
    DoublyLinkedList → List Nat → Option (List Nat × DoublyLinkedList)
  | links, a :: v :: b :: rest => do
    let links1 ← Merge2GoodInt x p links a v b
    let (tail1, links2) ← mergeRound x p links1 (b :: rest)
    pure (a :: tail1, links2)
  | links, l => pure (l, links)

/-- The outer `while(IterList.size() > 2)` loop, with fuel. -/
def mergeLoop (x : NumericVector) (p : Nat) :
    Nat → List Nat → DoublyLinkedList → Option (List Nat × DoublyLinkedList)
  | 0, l, links => if 2 < l.length then none else pure (l, links)
  | fuel + 1, l, links =>
    if 2 < l.length then do
      let (l1, links1) ← mergeRound x p links l
      mergeLoop x p fuel l1 links1
    else
      pure (l, links)

/-- `void MergeIntervalsRecursively(const NumericVector& x, DoublyLinkedList& links,
const double& p, size_t LSI)`. -/
def MergeIntervalsRecursively (x : NumericVector) (links : DoublyLinkedList)
    (p : Nat) (LSI : Nat) : Option DoublyLinkedList := do
  let l0 ← buildIter x links LSI (x.size + 1) 0 0 []
  let l1 := l0 ++ [x.size - 1]
  let (_, links1) ← mergeLoop x p l1.length l1 links
  pure links1

/-- The output accumulation loop of `pvar`: `while(i < n){ pvalue += links[i].pvdiff;
i = links[i].next; }`, with fuel. -/
def accumLoop (x : NumericVector) (links : DoublyLinkedList) :
    Nat → Nat → ℚ → Option ℚ
  | 0, _, _ => none
  | fuel + 1, i, acc =>
    if i < x.size then do
      let d ← links.get? i
      accumLoop x links fuel d.next (acc + d.pvdiff)
    else
      pure acc

/-- `double pvar(const NumericVector& x, double p)` with explicit partiality:
`none` would mean fuel exhaustion or an out-of-bounds access. -/
def pvarO (x : NumericVector) (p : Nat) : Option ℚ :=
  if x.size ≤ 2 then
    if x.size ≤ 1 then
      pure 0
    else do
      let x0 ← x.get? 0
      let x1 ← x.get? 1
      pure (pvar_diff (x0 - x1) p)
  else do
    let links0 : DoublyLinkedList := Array.mkArray x.size ⟨0, 0, 0⟩
    let links1 ← DetectLocalExtrema x links0 p
    let links2 ← CheckShortIntervals x links1 p
    let links3 ← MergeIntervalsRecursively x links2 p 4
    accumLoop x links3 (x.size + 1) 0 0

/-- The total entry point `pvar` (the program never actually hits the
`none` case; that is the termination/safety theorem). -/
def pvar (x : NumericVector) (p : Nat) : ℚ := (pvarO x p).getD 0

/-- Sum of p-variation increments along a list of indices into `x`. -/
def pathSum (x : NumericVector) (p : Nat) : List Nat → ℚ
  | i :: j :: rest => pvar_diff (x.getD j 0 - x.getD i 0) p + pathSum x p (j :: rest)
  | _ => 0

/-- Exhaustive-enumeration p-variation: the maximum of `pathSum` over all
strictly increasing index subsequences (all sublists of `[0, …, n-1]`). -/
def bruteMax (x : NumericVector) (p : Nat) : ℚ :=
  ((List.range x.size).sublists.map (pathSum x p)).foldl max 0

/-! ## Basic access lemmas -/

theorem get?_eq_getp (links : DoublyLinkedList) (i : Nat) (h : i < links.size) :
    links.get? i = some (getp links i) := by
  simp [Array.get?, getp, Array.getD, h]

theorem get?_isSome_iff (links : DoublyLinkedList) (i : Nat) :
    (links.get? i).isSome ↔ i < links.size := by
  by_cases h : i < links.size <;> simp [Array.get?, h]

theorem modifyL_eq (links : DoublyLinkedList) (i : Nat) (f : pointdata → pointdata)
    (h : i < links.size) :
    modifyL links i f = some (links.set ⟨i, h⟩ (f (getp links i))) := by
  simp [modifyL, h, getp, Array.getD, Array.get_eq_getElem]

theorem size_modifyL {links links' : DoublyLinkedList} {i : Nat} {f : pointdata → pointdata}
    (h : modifyL links i f = some links') : links'.size = links.size := by
  unfold modifyL at h
  split at h
  · cases h; simp
  · cases h

theorem getp_lt (links : DoublyLinkedList) (i : Nat) (h : i < links.size) :
    getp links i = links.get ⟨i, h⟩ := by
  simp [getp, Array.getD, h]

theorem getp_set (links : DoublyLinkedList) (i : Nat) (h : i < links.size)
    (d : pointdata) (j : Nat) :
    getp (links.set ⟨i, h⟩ d) j = if j = i then d else getp links j := by
  unfold getp Array.getD
  rcases Nat.lt_or_ge j links.size with hj | hj
  · simp only [Array.size_set, hj, dite_true, Array.get_eq_getElem]
    rw [Array.getElem_set]
    split <;> simp_all [eq_comm]
  · have h1 : ¬ j < links.size := Nat.not_lt.mpr hj
    have hji : j ≠ i := by omega
    simp [Array.size_set, h1, hji]

theorem getp_modifyL {links links' : DoublyLinkedList} {i : Nat} {f : pointdata → pointdata}
    (h : modifyL links i f = some links') (j : Nat) :
    getp links' j = if j = i then f (getp links i) else getp links j := by
  unfold modifyL at h
  by_cases hi : i < links.size
  · rw [dif_pos hi] at h
    cases h
    rw [getp_set links i hi _ j, getp_lt links i hi]
  · rw [dif_neg hi] at h
    cases h

/-! ## Claim C2: short-sequence special cases -/

/-- **C2**: `pvar` returns `0` on sequences of length `0` or `1` and
`|x[0] − x[1]|^p` on sequences of length `2` (the short-circuit before the
extrema/short-interval/merge pipeline). -/
theorem pvar_short_cases (x : NumericVector) (p : Nat) :
    (x.size ≤ 1 → pvar x p = 0) ∧
    (x.size = 2 → pvar x p = |x.getD 0 0 - x.getD 1 0| ^ p) := by
  constructor
  · intro h
    have h2 : x.size ≤ 2 := by omega
    simp [pvar, pvarO, h, h2]
  · intro h
    have h2 : x.size ≤ 2 := by omega
    have h1 : ¬ x.size ≤ 1 := by omega
    have g0 : x.get? 0 = some (x.getD 0 0) := by
      simp [Array.get?, Array.getD, show 0 < x.size by omega]
    have g1 : x.get? 1 = some (x.getD 1 0) := by
      simp [Array.get?, Array.getD, show 1 < x.size by omega]
    unfold pvar pvarO
    rw [if_pos h2, if_neg h1]
    show (x.get? 0 |>.bind fun x0 => x.get? 1 |>.bind fun x1 =>
      some (pvar_diff (x0 - x1) p)).getD 0 = _
    rw [g0, g1]
    simp [pvar_diff]

/-- Witness for C2 at the concrete inputs `[]` (length 0) and `[2, 5]`
(length 2, `p = 3`, value `27`). -/
theorem pvar_short_cases_witness :
    pvar (#[] : NumericVector) 1 = 0 ∧ pvar (#[2, 5] : NumericVector) 3 = 27 := by
  constructor
  · exact (pvar_short_cases #[] 1).1 (by decide)
  · have h := (pvar_short_cases #[2, 5] 3).2 (by decide)
    rw [h]; norm_num

/-! ## Claim C10: degenerate merges are no-ops -/

/-- **C10**: `Merge2GoodInt(a, v, b)` leaves the links structure unchanged
whenever `a = v` or `v = b`; consequently a merge round on a boundary list
ending in a duplicated index (as produced by the unconditional
`IterList.push_back(x.size()-1)`) drops the duplicate without touching the
links. -/
theorem merge2GoodInt_degenerate (x : NumericVector) (p : Nat)
    (links : DoublyLinkedList) (a v b : Nat) (h : a = v ∨ v = b) :
    Merge2GoodInt x p links a v b = some links ∧
    (∀ w c : Nat, mergeRound x p links [c, w, w] = some ([c, w], links)) := by
  constructor
  · unfold Merge2GoodInt
    rw [if_pos h]
    rfl
  · intro w c
    have hm : Merge2GoodInt x p links c w w = some links := by
      unfold Merge2GoodInt
      rw [if_pos (Or.inr rfl)]
      rfl
    simp only [mergeRound, hm, Option.some_bind, Option.bind_eq_bind]
    rfl

/-- Witness for C10 at a concrete degenerate call (`v = b = 2`). -/
theorem merge2GoodInt_degenerate_witness :
    Merge2GoodInt #[1, 5, 2] 2 (Array.mkArray 3 ⟨0, 0, 0⟩) 0 2 2 =
      some (Array.mkArray 3 ⟨0, 0, 0⟩) :=
  (merge2GoodInt_degenerate #[1, 5, 2] 2 (Array.mkArray 3 ⟨0, 0, 0⟩) 0 2 2
    (Or.inr rfl)).1

/-! ## The chain invariant -/

/-- Well-formedness of one edge of the admissible-point chain: the nodes are
doubly linked and `pvdiff` of the right endpoint is the p-variation
increment of the edge. -/
def EdgeOK (x : NumericVector) (p : Nat) (links : DoublyLinkedList) (a b : Nat) : Prop :=
  a < b ∧ b < x.size ∧ (getp links a).next = b ∧ (getp links b).prev = a ∧
    (getp links b).pvdiff = pvar_diff (x.getD b 0 - x.getD a 0) p

/-- Global invariant of the links structure: `c` is the full ordered list of
admissible indices, a single chain from `0` to `n-1`, with the tail sentinel
`n` and all stored link fields in `[0, n]`. -/
structure Inv (x : NumericVector) (p : Nat) (links : DoublyLinkedList) (c : List Nat) :
    Prop where
  size_ok : links.size = x.size
  pos : 0 < x.size
  head_c : c.head? = some 0
  last_c : c.getLast? = some (x.size - 1)
  chain : c.Chain' (EdgeOK x p links)
  head_prev : (getp links 0).prev = 0
  head_pv : (getp links 0).pvdiff = 0
  last_next : (getp links (x.size - 1)).next = x.size
  bound_ok : ∀ i, i < links.size →
    (getp links i).prev ≤ x.size ∧ (getp links i).next ≤ x.size

/-- Shorthand for position-based access into the chain list. -/
def cgd (c : List Nat) (t : Nat) : Nat := c.getD t 0

theorem cgd_eq_get (c : List Nat) (t : Nat) (h : t < c.length) :
    cgd c t = c.get ⟨t, h⟩ := by
  simp [cgd, List.getD, List.get_eq_getElem, List.getElem?_eq_getElem, h]

theorem chain'_imp_mem {l : List Nat} {R S : Nat → Nat → Prop}
    (h : l.Chain' R) (himp : ∀ a ∈ l, ∀ b ∈ l, R a b → S a b) : l.Chain' S := by
  induction l with
  | nil => exact List.chain'_nil
  | cons a t ih =>
    rw [List.chain'_cons'] at h ⊢
    refine ⟨fun y hy => himp a (by simp) y ?_ (h.1 y hy), ih h.2 ?_⟩
    · rcases t with _ | ⟨z, t'⟩
      · simp at hy
      · simp at hy; simp [hy]
    · intro a' ha' b' hb' hr
      exact himp a' (by simp [ha']) b' (by simp [hb']) hr

theorem Inv.sorted {x : NumericVector} {p : Nat} {links : DoublyLinkedList}
    {c : List Nat} (h : Inv x p links c) : c.Pairwise (· < ·) := by
  have hc : c.Chain' (· < ·) := chain'_imp_mem h.chain (fun a _ b _ hr => hr.1)
  exact List.chain'_iff_pairwise.mp hc

theorem Inv.ne_nil {x : NumericVector} {p : Nat} {links : DoublyLinkedList}
    {c : List Nat} (h : Inv x p links c) : c ≠ [] := by
  intro hc
  have hd := h.head_c
  rw [hc] at hd
  simp at hd

theorem Inv.head_mem {x : NumericVector} {p : Nat} {links : DoublyLinkedList}
    {c : List Nat} (h : Inv x p links c) : 0 ∈ c := by
  have := h.head_c
  rcases c with _ | ⟨a, t⟩
  · simp at this
  · simp at this
    simp [this]

theorem Inv.mem_lt {x : NumericVector} {p : Nat} {links : DoublyLinkedList}
    {c : List Nat} (h : Inv x p links c) {m : Nat} (hm : m ∈ c) : m < x.size := by
  have hd := h.head_c
  rcases c with _ | ⟨a, t⟩
  · simp at hm
  · simp at hd
    subst hd
    rw [List.mem_cons] at hm
    rcases hm with hm | hm
    · subst hm; exact h.pos
    · -- every non-head member is the right endpoint of an edge
      have : ∀ (a' : Nat) (t' : List Nat), (a' :: t').Chain' (EdgeOK x p links) →
          m ∈ t' → m < x.size := by
        intro a' t'
        induction t' generalizing a' with
        | nil => intro _ hm'; simp at hm'
        | cons b' t'' ih =>
          intro hch hm'
          rw [List.chain'_cons] at hch
          rw [List.mem_cons] at hm'
          rcases hm' with hm' | hm'
          · subst hm'; exact hch.1.2.1
          · exact ih b' hch.2 hm'
      exact this 0 t h.chain hm

theorem Inv.get_mono {x : NumericVector} {p : Nat} {links : DoublyLinkedList}
    {c : List Nat} (h : Inv x p links c) {s t : Nat} (hst : s < t) (ht : t < c.length) :
    cgd c s < cgd c t := by
  rw [cgd_eq_get c s (by omega), cgd_eq_get c t ht]
  exact List.pairwise_iff_get.mp h.sorted ⟨s, by omega⟩ ⟨t, ht⟩ hst

theorem Inv.nodup {x : NumericVector} {p : Nat} {links : DoublyLinkedList}
    {c : List Nat} (h : Inv x p links c) : c.Nodup :=
  h.sorted.nodup

theorem Inv.length_le {x : NumericVector} {p : Nat} {links : DoublyLinkedList}
    {c : List Nat} (h : Inv x p links c) : c.length ≤ x.size := by
  have hsub : c.toFinset ⊆ Finset.range x.size := by
    intro m hm
    rw [List.mem_toFinset] at hm
    exact Finset.mem_range.mpr (h.mem_lt hm)
  have hcard := Finset.card_le_card hsub
  rwa [List.toFinset_card_of_nodup h.nodup, Finset.card_range] at hcard

theorem Inv.cgd_mem {c : List Nat} {t : Nat} (ht : t < c.length) : cgd c t ∈ c := by
  rw [cgd_eq_get c t ht]
  exact c.get_mem t ht

theorem Inv.cgd_lt_size {x : NumericVector} {p : Nat} {links : DoublyLinkedList}
    {c : List Nat} (h : Inv x p links c) {t : Nat} (ht : t < c.length) :
    cgd c t < x.size :=
  h.mem_lt (Inv.cgd_mem ht)

theorem Inv.cgd_zero {x : NumericVector} {p : Nat} {links : DoublyLinkedList}
    {c : List Nat} (h : Inv x p links c) : cgd c 0 = 0 := by
  have hd := h.head_c
  rcases c with _ | ⟨a, t⟩
  · simp at hd
  · simp at hd
    simp [cgd, hd]

theorem Inv.edge {x : NumericVector} {p : Nat} {links : DoublyLinkedList}
    {c : List Nat} (h : Inv x p links c) {t : Nat} (ht : t + 1 < c.length) :
    EdgeOK x p links (cgd c t) (cgd c (t + 1)) := by
  rw [cgd_eq_get c t (by omega), cgd_eq_get c (t + 1) ht]
  exact List.chain'_iff_get.mp h.chain t (by omega)

theorem Inv.cgd_pos {x : NumericVector} {p : Nat} {links : DoublyLinkedList}
    {c : List Nat} (h : Inv x p links c) {t : Nat} (ht : 0 < t) (htl : t < c.length) :
    0 < cgd c t := by
  have := h.get_mono ht htl
  rw [h.cgd_zero] at this
  exact this

theorem Inv.getLast_cgd {x : NumericVector} {p : Nat} {links : DoublyLinkedList}
    {c : List Nat} (h : Inv x p links c) :
    cgd c (c.length - 1) = x.size - 1 := by
  have hne := h.ne_nil
  have hl := h.last_c
  rw [List.getLast?_eq_getLast c hne] at hl
  have h2 := Option.some_injective _ hl
  rw [cgd_eq_get c (c.length - 1) (by have := List.length_pos.mpr hne; omega),
    List.get_eq_getElem, ← List.getLast_eq_getElem c hne]
  exact h2

/-! ## Window sums and the excision lemma -/

/-- Sum of the `pvdiff` weights of the chain members at positions in `(i, j]`:
the running checksum of a window from position `i` to position `j`. -/
def winSum (links : DoublyLinkedList) (c : List Nat) (i j : Nat) : ℚ :=
  ∑ t ∈ Finset.Ico (i + 1) (j + 1), (getp links (cgd c t)).pvdiff

theorem winSum_self (links : DoublyLinkedList) (c : List Nat) (i : Nat) :
    winSum links c i i = 0 := by
  simp [winSum]

theorem winSum_top (links : DoublyLinkedList) (c : List Nat) {i j : Nat} (h : i ≤ j) :
    winSum links c i (j + 1) = winSum links c i j + (getp links (cgd c (j + 1))).pvdiff := by
  unfold winSum
  rw [Finset.sum_Ico_succ_top (by omega)]

theorem winSum_bot (links : DoublyLinkedList) (c : List Nat) {i j : Nat}
    (hi : 0 < i) (h : i ≤ j) :
    winSum links c (i - 1) j = (getp links (cgd c i)).pvdiff + winSum links c i j := by
  unfold winSum
  have h1 : i - 1 + 1 = i := by omega
  rw [h1, Finset.sum_eq_sum_Ico_succ_bot (by omega)]

/-- Reads of the links structure after the two-write excision
`links[b].next = e; links[e].prev = b; links[e].pvdiff = w`. -/
theorem excise_getp {links l1 l2 : DoublyLinkedList} {b e : Nat} {w : ℚ} (hbe : b ≠ e)
    (hl1 : modifyL links b (fun d => { d with next := e }) = some l1)
    (hl2 : modifyL l1 e (fun d => { d with prev := b, pvdiff := w }) = some l2) (k : Nat) :
    getp l2 k = if k = e then { getp links e with prev := b, pvdiff := w }
      else if k = b then { getp links b with next := e } else getp links k := by
  rw [getp_modifyL hl2 k]
  by_cases hk : k = e
  · rw [if_pos hk, if_pos hk, getp_modifyL hl1 e, if_neg (Ne.symm hbe)]
  · rw [if_neg hk, if_neg hk, getp_modifyL hl1 k]

/-- `EdgeOK` only reads `next` of the left endpoint and `prev`/`pvdiff` of the
right endpoint. -/
theorem EdgeOK_congr {x : NumericVector} {p : Nat} {links links' : DoublyLinkedList}
    {u v : Nat} (h : EdgeOK x p links u v)
    (hn : (getp links' u).next = (getp links u).next)
    (hp : (getp links' v).prev = (getp links v).prev)
    (hd : (getp links' v).pvdiff = (getp links v).pvdiff) : EdgeOK x p links' u v := by
  obtain ⟨h1, h2, h3, h4, h5⟩ := h
  exact ⟨h1, h2, by rw [hn, h3], by rw [hp, h4], by rw [hd, h5]⟩

theorem head?_cgd {l : List Nat} (h : l ≠ []) : l.head? = some (cgd l 0) := by
  rcases l with _ | ⟨a, t⟩
  · exact absurd rfl h
  · simp [cgd]

theorem getLast?_cgd {l : List Nat} (h : l ≠ []) :
    l.getLast? = some (cgd l (l.length - 1)) := by
  rw [List.getLast?_eq_getLast l h,
    cgd_eq_get l (l.length - 1) (by have := List.length_pos.mpr h; omega),
    List.get_eq_getElem, ← List.getLast_eq_getElem l h]

theorem excise_length {c : List Nat} {i j : Nat} (hij : i < j) (hjl : j < c.length) :
    (c.take (i + 1) ++ c.drop j).length = i + 1 + (c.length - j) := by
  simp [List.length_take, List.length_drop]
  omega

theorem excise_cgd_low {c : List Nat} {i j t : Nat} (hij : i < j) (hjl : j < c.length)
    (ht : t ≤ i) : cgd (c.take (i + 1) ++ c.drop j) t = cgd c t := by
  have h1 : t < (c.take (i + 1)).length := by
    simp [List.length_take]; omega
  have h2 : t < (c.take (i + 1) ++ c.drop j).length := by
    rw [excise_length hij hjl]; omega
  rw [cgd_eq_get _ t h2, cgd_eq_get c t (by omega), List.get_eq_getElem,
    List.get_eq_getElem, List.getElem_append_left h1, List.getElem_take]

theorem excise_cgd_high {c : List Nat} {i j t : Nat} (hij : i < j) (hjl : j < c.length)
    (ht : i + 1 ≤ t) (htl : t < i + 1 + (c.length - j)) :
    cgd (c.take (i + 1) ++ c.drop j) t = cgd c (j + (t - (i + 1))) := by
  have hlt : (c.take (i + 1)).length = i + 1 := by
    simp [List.length_take]; omega
  have hd1 : t - (i + 1) < (c.drop j).length := by
    simp [List.length_drop]; omega
  have h3 : j + (t - (i + 1)) < c.length := by omega
  unfold cgd
  rw [List.getD_append_right (c.take (i + 1)) (c.drop j) 0 t (by rw [hlt]; omega), hlt,
    List.getD_eq_getElem _ _ hd1, List.getD_eq_getElem _ _ h3]
  simp [List.getElem_drop]

theorem excise_sublist {c : List Nat} {i j : Nat} (hij : i < j) :
    List.Sublist (c.take (i + 1) ++ c.drop j) c := by
  conv_rhs => rw [← List.take_append_drop (i + 1) c]
  refine List.Sublist.append_left ?_ _
  have : c.drop j = (c.drop (i + 1)).drop (j - (i + 1)) := by
    rw [List.drop_drop]
    congr 1
    omega
  rw [this]
  exact List.drop_sublist _ _

/-- **Excision**: removing the chain members strictly between positions `i` and
`j` and linking `cgd c i → cgd c j` directly with the correct direct-jump
weight preserves the global invariant. -/
theorem excise_ok {x : NumericVector} {p : Nat} {links : DoublyLinkedList} {c : List Nat}
    (hInv : Inv x p links c) {i j : Nat} (hij : i < j) (hjl : j < c.length)
    {l1 l2 : DoublyLinkedList} {w : ℚ}
    (hw : w = pvar_diff (x.getD (cgd c j) 0 - x.getD (cgd c i) 0) p)
    (hl1 : modifyL links (cgd c i) (fun d => { d with next := cgd c j }) = some l1)
    (hl2 : modifyL l1 (cgd c j) (fun d => { d with prev := cgd c i, pvdiff := w }) = some l2) :
    Inv x p l2 (c.take (i + 1) ++ c.drop j) := by
  have hbe : cgd c i < cgd c j := hInv.get_mono hij hjl
  have hbe' : cgd c i ≠ cgd c j := Nat.ne_of_lt hbe
  have hsize : l2.size = x.size := by
    rw [size_modifyL hl2, size_modifyL hl1, hInv.size_ok]
  have hread := excise_getp hbe' hl1 hl2
  have he_pos : 0 < cgd c j := hInv.cgd_pos (by omega) hjl
  have he_lt : cgd c j < x.size := hInv.cgd_lt_size hjl
  have hlen : (c.take (i + 1) ++ c.drop j).length = i + 1 + (c.length - j) :=
    excise_length hij hjl
  have hNne : c.take (i + 1) ++ c.drop j ≠ [] := by
    intro hnil
    have := congrArg List.length hnil
    rw [hlen] at this
    simp at this
  refine ⟨hsize, hInv.pos, ?_, ?_, ?_, ?_, ?_, ?_, ?_⟩
  · -- head
    rw [head?_cgd hNne, excise_cgd_low hij hjl (by omega), hInv.cgd_zero]
  · -- last
    rw [getLast?_cgd hNne, hlen]
    have h1 : i + 1 ≤ i + 1 + (c.length - j) - 1 := by omega
    rw [excise_cgd_high hij hjl h1 (by omega)]
    have h2 : j + (i + 1 + (c.length - j) - 1 - (i + 1)) = c.length - 1 := by omega
    rw [h2, hInv.getLast_cgd]
  · -- chain
    rw [List.chain'_iff_get]
    intro t htl
    rw [hlen] at htl
    rw [← cgd_eq_get _ t (by rw [hlen]; omega), ← cgd_eq_get _ (t + 1) (by rw [hlen]; omega)]
    rcases Nat.lt_or_ge (t + 1) (i + 1) with hcase | hcase
    · -- both endpoints in the low part
      rw [excise_cgd_low hij hjl (by omega), excise_cgd_low hij hjl (by omega)]
      have hedge := hInv.edge (show t + 1 < c.length by omega)
      have hu_lt : cgd c t < cgd c i := hInv.get_mono (by omega) (by omega)
      have hv_le : cgd c (t + 1) < cgd c j := by
        rcases Nat.lt_or_ge (t + 1) i with h' | h'
        · exact lt_trans (hInv.get_mono h' (by omega)) hbe
        · have : t + 1 = i := by omega
          rw [this]; exact hbe
      refine EdgeOK_congr hedge ?_ ?_ ?_
      · rw [hread (cgd c t), if_neg (by omega), if_neg (by omega)]
      · rw [hread (cgd c (t + 1)), if_neg (by omega)]
        by_cases hvb : cgd c (t + 1) = cgd c i
        · rw [if_pos hvb, hvb]
        · rw [if_neg hvb]
      · rw [hread (cgd c (t + 1)), if_neg (by omega)]
        by_cases hvb : cgd c (t + 1) = cgd c i
        · rw [if_pos hvb, hvb]
        · rw [if_neg hvb]
    · rcases Nat.lt_or_ge t (i + 1) with hcase2 | hcase2
      · -- the new direct edge from position i to position j
        have hti : t = i := by omega
        subst hti
        rw [excise_cgd_low hij hjl (le_refl t), excise_cgd_high hij hjl (by omega)
          (by omega)]
        have hj0 : j + (t + 1 - (t + 1)) = j := by omega
        rw [hj0]
        refine ⟨hbe, he_lt, ?_, ?_, ?_⟩
        · rw [hread (cgd c t), if_neg (by omega), if_pos rfl]
        · rw [hread (cgd c j), if_pos rfl]
        · rw [hread (cgd c j), if_pos rfl, hw]
      · -- both endpoints in the high part
        rw [excise_cgd_high hij hjl (by omega) (by omega),
          excise_cgd_high hij hjl (by omega) (by omega)]
        have harith : j + (t + 1 - (i + 1)) = j + (t - (i + 1)) + 1 := by omega
        rw [harith]
        have hedge := hInv.edge (show j + (t - (i + 1)) + 1 < c.length by omega)
        have hu_ge : cgd c j ≤ cgd c (j + (t - (i + 1))) := by
          rcases Nat.eq_or_lt_of_le (Nat.le_add_right j (t - (i + 1))) with h' | h'
          · rw [← h']
          · exact le_of_lt (hInv.get_mono h' (by omega))
        have hv_gt : cgd c j < cgd c (j + (t - (i + 1)) + 1) := by
          exact lt_of_le_of_lt hu_ge hedge.1
        refine EdgeOK_congr hedge ?_ ?_ ?_
        · rw [hread (cgd c (j + (t - (i + 1))))]
          by_cases hue : cgd c (j + (t - (i + 1))) = cgd c j
          · rw [if_pos hue, hue]
          · rw [if_neg hue, if_neg (by omega)]
        · rw [hread (cgd c (j + (t - (i + 1)) + 1)), if_neg (by omega), if_neg (by omega)]
        · rw [hread (cgd c (j + (t - (i + 1)) + 1)), if_neg (by omega), if_neg (by omega)]
  · -- head prev
    rw [hread 0, if_neg (by omega)]
    by_cases h0b : 0 = cgd c i
    · rw [if_pos h0b, ← h0b]
      exact hInv.head_prev
    · rw [if_neg h0b]
      exact hInv.head_prev
  · -- head pvdiff
    rw [hread 0, if_neg (by omega)]
    by_cases h0b : 0 = cgd c i
    · rw [if_pos h0b, ← h0b]
      exact hInv.head_pv
    · rw [if_neg h0b]
      exact hInv.head_pv
  · -- last next
    rw [hread (x.size - 1)]
    by_cases hle : x.size - 1 = cgd c j
    · rw [if_pos hle, ← hle]
      exact hInv.last_next
    · rw [if_neg hle, if_neg (by omega)]
      exact hInv.last_next
  · -- bounds
    intro k hk
    rw [hsize] at hk
    have hold := hInv.bound_ok k (by rw [hInv.size_ok]; exact hk)
    rw [hread k]
    by_cases hke : k = cgd c j
    · rw [if_pos hke]
      rw [hke] at hold
      constructor
      · show cgd c i ≤ x.size
        omega
      · exact hold.2
    · rw [if_neg hke]
      by_cases hkb : k = cgd c i
      · rw [if_pos hkb]
        rw [hkb] at hold
        exact ⟨hold.1, by show cgd c j ≤ x.size; omega⟩
      · rw [if_neg hkb]
        exact hold

/-! ## DetectLocalExtrema establishes the invariant -/

theorem xget_eq (x : NumericVector) (i : Nat) (h : i < x.size) :
    x.get? i = some (x.getD i 0) := by
  simp [Array.get?, Array.getD, h]

theorem getp_mkArray (n k : Nat) :
    getp (Array.mkArray n (⟨0, 0, 0⟩ : pointdata)) k = ⟨0, 0, 0⟩ := by
  unfold getp Array.getD
  split
  · simp [Array.getElem_mkArray]
  · rfl

/-- Case analysis of one `DetectLocalExtrema` scan step: either no new
extremum is recorded and the links are untouched, or index `i` is linked to
the previous extremum. -/
theorem DLEstep_cases (x : NumericVector) (p : Nat) (s : DLEState) (i : Nat)
    (hi : i < x.size) (hsize : s.links.size = x.size) (hlast : s.last_extremum < x.size) :
    (∃ d, DLEstep x p s i = some ⟨s.last_extremum, d, s.links⟩ ∧ i + 1 ≠ x.size)
    ∨ (∃ d l1 l2, DLEstep x p s i = some ⟨i, d, l2⟩ ∧
        modifyL s.links s.last_extremum (fun dd => { dd with next := i }) = some l1 ∧
        modifyL l1 i (fun dd =>
          { dd with
              prev := s.last_extremum,
              pvdiff := pvar_diff (x.getD i 0 - x.getD s.last_extremum 0) p }) = some l2 ∧
        (i + 1 = x.size ∨ s.direction ≠ 0)) := by
  have hl1 : modifyL s.links s.last_extremum (fun dd => { dd with next := i })
      = some (s.links.set ⟨s.last_extremum, by omega⟩
        ({ getp s.links s.last_extremum with next := i })) :=
    modifyL_eq _ _ _ (by omega)
  have hsize1 : (s.links.set ⟨s.last_extremum, by omega⟩
      ({ getp s.links s.last_extremum with next := i })).size = x.size := by
    simp [hsize]
  have hl2 : modifyL (s.links.set ⟨s.last_extremum, by omega⟩
      ({ getp s.links s.last_extremum with next := i })) i
      (fun dd =>
        { dd with
            prev := s.last_extremum,
            pvdiff := pvar_diff (x.getD i 0 - x.getD s.last_extremum 0) p }) = some _ :=
    modifyL_eq _ _ _ (by rw [hsize1]; omega)
  have hdec : ∃ ne d, DLEdecide x s.direction (x.getD i 0) i = some (ne, d) ∧
      (ne = false → i + 1 ≠ x.size) ∧
      (ne = true → i + 1 = x.size ∨ s.direction ≠ 0) := by
    unfold DLEdecide
    by_cases hn : i + 1 = x.size
    · rw [if_neg (by omega)]
      exact ⟨true, s.direction, rfl, by simp, fun _ => Or.inl hn⟩
    · rw [if_pos (by omega), xget_eq x (i + 1) (by omega)]
      simp only [Option.bind_eq_bind, Option.some_bind]
      by_cases hc1 : x.getD i 0 < x.getD (i + 1) 0
      · rw [if_pos hc1]
        refine ⟨s.direction == -1, 1, rfl, fun _ => hn, fun he => Or.inr ?_⟩
        intro h0
        rw [h0] at he
        simp at he
      · rw [if_neg hc1]
        by_cases hc2 : x.getD (i + 1) 0 < x.getD i 0
        · rw [if_pos hc2]
          refine ⟨s.direction == 1, -1, rfl, fun _ => hn, fun he => Or.inr ?_⟩
          intro h0
          rw [h0] at he
          simp at he
        · rw [if_neg hc2]
          exact ⟨false, s.direction, rfl, fun _ => hn, by simp⟩
  obtain ⟨ne, d, hdec, hfalse, htrue⟩ := hdec
  unfold DLEstep
  rw [xget_eq x i hi]
  simp only [Option.bind_eq_bind, Option.some_bind]
  rw [hdec]
  simp only [Option.bind_eq_bind, Option.some_bind]
  cases ne
  · left
    refine ⟨d, ?_, hfalse rfl⟩
    simp
  · right
    refine ⟨d, _, _, ?_, hl1, hl2, htrue rfl⟩
    rw [if_pos (show ((true, d).1 = true) from rfl), xget_eq x s.last_extremum hlast]
    simp only [Option.bind_eq_bind, Option.some_bind]
    rw [hl1]
    simp only [Option.bind_eq_bind, Option.some_bind]
    rw [hl2]
    simp only [Option.bind_eq_bind, Option.some_bind]
    rfl

/-- Invariant carried through the `DetectLocalExtrema` scan: after processing
indices `< i`, the links hold a well-formed chain ending at the last recorded
extremum. -/
structure DLEok (x : NumericVector) (p : Nat) (i : Nat) (s : DLEState) : Prop where
  size_ok : s.links.size = x.size
  last_lt : s.last_extremum < x.size
  last_bound : s.last_extremum = 0 ∨ s.last_extremum < i
  dir0 : i = 0 → s.direction = 0
  chain : ∃ c : List Nat, c.head? = some 0 ∧ c.getLast? = some s.last_extremum ∧
    c.Chain' (EdgeOK x p s.links) ∧ (∀ m ∈ c, m ≤ s.last_extremum)
  head_prev : (getp s.links 0).prev = 0
  head_pv : (getp s.links 0).pvdiff = 0
  tail_next : (getp s.links (x.size - 1)).next = x.size
  bound_ok : ∀ k, k < s.links.size →
    (getp s.links k).prev ≤ x.size ∧ (getp s.links k).next ≤ x.size

theorem DLEstep_ok (x : NumericVector) (p : Nat) {s : DLEState} {i : Nat}
    (h2 : 2 ≤ x.size) (hi : i < x.size) (hok : DLEok x p i s) :
    ∃ s', DLEstep x p s i = some s' ∧ DLEok x p (i + 1) s' ∧
      (i + 1 = x.size → s'.last_extremum = i) := by
  rcases DLEstep_cases x p s i hi hok.size_ok hok.last_lt with
    ⟨d, hstep, hne⟩ | ⟨d, l1, l2, hstep, hl1, hl2, hfire⟩
  · refine ⟨_, hstep, ?_, ?_⟩
    · refine ⟨hok.size_ok, hok.last_lt, ?_, by omega, hok.chain, hok.head_prev,
        hok.head_pv, hok.tail_next, hok.bound_ok⟩
      show s.last_extremum = 0 ∨ s.last_extremum < i + 1
      rcases hok.last_bound with h | h
      · exact Or.inl h
      · exact Or.inr (by omega)
    · intro h
      exact absurd h hne
  · -- an extremum fired at index i
    have hipos : 0 < i := by
      rcases Nat.eq_zero_or_pos i with h0 | h0
      · exfalso
        rcases hfire with hf | hf
        · omega
        · exact hf (hok.dir0 h0)
      · exact h0
    have hlast_lt_i : s.last_extremum < i := by
      rcases hok.last_bound with h | h <;> omega
    have hread := excise_getp (Nat.ne_of_lt hlast_lt_i) hl1 hl2
    have hsize2 : l2.size = x.size := by
      rw [size_modifyL hl2, size_modifyL hl1, hok.size_ok]
    obtain ⟨c, hch, hcl, hcc, hcm⟩ := hok.chain
    have hcne : c ≠ [] := by
      intro h0; rw [h0] at hch; simp at hch
    refine ⟨_, hstep, ?_, fun _ => rfl⟩
    refine ⟨hsize2, hi, Or.inr (by show i < i + 1; omega), by omega, ?_, ?_, ?_, ?_, ?_⟩
    · -- the extended chain
      refine ⟨c ++ [i], ?_, ?_, ?_, ?_⟩
      · rcases c with _ | ⟨a, t⟩
        · exact absurd rfl hcne
        · simpa using hch
      · simp
      · rw [List.chain'_append]
        refine ⟨?_, List.chain'_singleton i, ?_⟩
        · refine chain'_imp_mem hcc ?_
          intro u hu v hv he
          have hu_le : u ≤ s.last_extremum := hcm u hu
          have hv_le : v ≤ s.last_extremum := hcm v hv
          have hu_lt : u < s.last_extremum := lt_of_lt_of_le he.1 hv_le
          refine EdgeOK_congr he ?_ ?_ ?_
          · rw [hread u, if_neg (by omega), if_neg (by omega)]
          · rw [hread v, if_neg (by omega)]
            by_cases hvl : v = s.last_extremum
            · rw [if_pos hvl, hvl]
            · rw [if_neg hvl]
          · rw [hread v, if_neg (by omega)]
            by_cases hvl : v = s.last_extremum
            · rw [if_pos hvl, hvl]
            · rw [if_neg hvl]
        · intro u hu v hv
          rw [hcl] at hu
          simp at hu hv
          subst hu; subst hv
          refine ⟨hlast_lt_i, hi, ?_, ?_, ?_⟩
          · rw [hread s.last_extremum, if_neg (by omega), if_pos rfl]
          · rw [hread i, if_pos rfl]
          · rw [hread i, if_pos rfl]
      · intro m hm
        simp at hm
        show m ≤ i
        rcases hm with hm | hm
        · exact le_of_lt (lt_of_le_of_lt (hcm m hm) hlast_lt_i)
        · omega
    · rw [hread 0, if_neg (by omega)]
      by_cases h0l : 0 = s.last_extremum
      · rw [if_pos h0l, ← h0l]; exact hok.head_prev
      · rw [if_neg h0l]; exact hok.head_prev
    · rw [hread 0, if_neg (by omega)]
      by_cases h0l : 0 = s.last_extremum
      · rw [if_pos h0l, ← h0l]; exact hok.head_pv
      · rw [if_neg h0l]; exact hok.head_pv
    · -- the sentinel next-pointer of the final record survives
      rw [hread (x.size - 1)]
      by_cases hei : x.size - 1 = i
      · rw [if_pos hei, ← hei]; exact hok.tail_next
      · rw [if_neg hei, if_neg (by omega)]
        exact hok.tail_next
    · intro k hk
      rw [hsize2] at hk
      have hold := hok.bound_ok k (by rw [hok.size_ok]; exact hk)
      rw [hread k]
      by_cases hke : k = i
      · rw [if_pos hke]
        rw [hke] at hold
        exact ⟨by show s.last_extremum ≤ x.size; omega, hold.2⟩
      · rw [if_neg hke]
        by_cases hkl : k = s.last_extremum
        · rw [if_pos hkl]
          rw [hkl] at hold
          exact ⟨hold.1, by show i ≤ x.size; omega⟩
        · rw [if_neg hkl]
          exact hold

theorem DLE_fold (x : NumericVector) (p : Nat) (h2 : 2 ≤ x.size) (s0 : DLEState)
    (hok0 : DLEok x p 0 s0) :
    ∀ m, m ≤ x.size → ∃ s, (List.range m).foldlM (DLEstep x p) s0 = some s ∧
      DLEok x p m s ∧ (m = x.size → s.last_extremum = x.size - 1) := by
  intro m
  induction m with
  | zero =>
    intro _
    exact ⟨s0, rfl, hok0, by omega⟩
  | succ m ih =>
    intro hm
    obtain ⟨s, hfold, hok, _⟩ := ih (by omega)
    obtain ⟨s2, hstep, hok2, hlast⟩ := DLEstep_ok x p h2 (show m < x.size by omega) hok
    refine ⟨s2, ?_, hok2, fun h => by rw [hlast h]; omega⟩
    rw [List.range_succ, List.foldlM_append, hfold]
    simp only [Option.bind_eq_bind, Option.some_bind, List.foldlM_cons, List.foldlM_nil,
      hstep]
    rfl

/-- Stage 1 result: on the zero-initialised links vector, `DetectLocalExtrema`
succeeds and establishes the chain invariant. -/
theorem DetectLocalExtrema_ok (x : NumericVector) (p : Nat) (h2 : 2 ≤ x.size) :
    ∃ links c, DetectLocalExtrema x (Array.mkArray x.size ⟨0, 0, 0⟩) p = some links ∧
      Inv x p links c := by
  have hsz0 : (Array.mkArray x.size (⟨0, 0, 0⟩ : pointdata)).size = x.size := by simp
  have hl1 := modifyL_eq (Array.mkArray x.size (⟨0, 0, 0⟩ : pointdata)) 0
    (fun d => { d with prev := 0, pvdiff := 0 }) (by omega)
  set l1 := (Array.mkArray x.size (⟨0, 0, 0⟩ : pointdata)).set ⟨0, by omega⟩
    ({ getp (Array.mkArray x.size (⟨0, 0, 0⟩ : pointdata)) 0 with prev := 0, pvdiff := 0 })
    with hl1def
  have hsz1 : l1.size = x.size := by rw [hl1def]; simp
  have hl2 := modifyL_eq l1 (x.size - 1) (fun d => { d with next := x.size })
    (by omega)
  set l2 := l1.set ⟨x.size - 1, by omega⟩ ({ getp l1 (x.size - 1) with next := x.size })
    with hl2def
  have hsz2 : l2.size = x.size := by rw [hl2def]; simp [hsz1]
  have g1 : ∀ k, getp l1 k = ⟨0, 0, 0⟩ := by
    intro k
    rw [hl1def, getp_set _ _ (by omega)]
    by_cases hk : k = 0
    · rw [if_pos hk]
      simp [getp_mkArray]
    · rw [if_neg hk, getp_mkArray]
  have hgetp : ∀ k, getp l2 k =
      if k = x.size - 1 then ⟨0, x.size, 0⟩ else ⟨0, 0, 0⟩ := by
    intro k
    rw [hl2def, getp_set _ _ (by omega)]
    by_cases hk : k = x.size - 1
    · rw [if_pos hk, if_pos hk, g1 (x.size - 1)]
    · rw [if_neg hk, if_neg hk, g1 k]
  have hok0 : DLEok x p 0 ⟨0, 0, l2⟩ := by
    refine ⟨hsz2, by show 0 < x.size; omega, Or.inl rfl, fun _ => rfl, ?_, ?_, ?_, ?_, ?_⟩
    · refine ⟨[0], rfl, rfl, List.chain'_singleton 0, ?_⟩
      intro m hm
      simp at hm
      omega
    · show (getp l2 0).prev = 0
      rw [hgetp 0, if_neg (by omega)]
    · show (getp l2 0).pvdiff = 0
      rw [hgetp 0, if_neg (by omega)]
    · show (getp l2 (x.size - 1)).next = x.size
      rw [hgetp (x.size - 1), if_pos rfl]
    · intro k _
      show (getp l2 k).prev ≤ x.size ∧ (getp l2 k).next ≤ x.size
      rw [hgetp k]
      by_cases hk : k = x.size - 1
      · rw [if_pos hk]
        exact ⟨Nat.zero_le _, le_refl _⟩
      · rw [if_neg hk]
        exact ⟨Nat.zero_le _, Nat.zero_le _⟩
  obtain ⟨s, hfold, hok, hlast⟩ := DLE_fold x p h2 ⟨0, 0, l2⟩ hok0 x.size (le_refl _)
  obtain ⟨c, hch, hcl, hcc, _⟩ := hok.chain
  refine ⟨s.links, c, ?_, ?_⟩
  · unfold DetectLocalExtrema
    rw [hl1]
    simp only [Option.bind_eq_bind, Option.some_bind]
    rw [hl2]
    simp only [Option.bind_eq_bind, Option.some_bind]
    rw [hfold]
    simp only [Option.bind_eq_bind, Option.some_bind]
    rfl
  · refine ⟨hok.size_ok, by omega, hch, ?_, hcc, hok.head_prev, hok.head_pv,
      hok.tail_next, hok.bound_ok⟩
    rw [hcl, hlast rfl]

/-! ## CheckShortIntervals preserves the invariant and terminates -/

theorem pvar_diff_comm (a b : ℚ) (p : Nat) : pvar_diff (a - b) p = pvar_diff (b - a) p := by
  unfold pvar_diff
  rw [abs_sub_comm]

/-- Behaviour of `advEnd` at a chain position: early return at the final
member, otherwise advance one position accumulating its weight. -/
theorem advEnd_spec {x : NumericVector} {p : Nat} {links : DoublyLinkedList}
    {c : List Nat} (hInv : Inv x p links c) (j : Nat) (hj : j < c.length) (csum : ℚ) :
    (j = c.length - 1 → advEnd x links csum (cgd c j) = some (Sum.inl links)) ∧
    (j < c.length - 1 → advEnd x links csum (cgd c j) =
      some (Sum.inr (csum + (getp links (cgd c (j + 1))).pvdiff, cgd c (j + 1)))) := by
  have hlt : cgd c j < links.size := by
    rw [hInv.size_ok]; exact hInv.cgd_lt_size hj
  constructor
  · intro hlast
    unfold advEnd
    rw [get?_eq_getp links _ hlt]
    simp only [Option.bind_eq_bind, Option.some_bind]
    rw [hlast, hInv.getLast_cgd, if_pos hInv.last_next]
    rfl
  · intro hmid
    have hedge := hInv.edge (show j + 1 < c.length by omega)
    have hnext_lt : cgd c (j + 1) < links.size := by
      rw [hInv.size_ok]; exact hInv.cgd_lt_size (by omega)
    unfold advEnd
    rw [get?_eq_getp links _ hlt]
    simp only [Option.bind_eq_bind, Option.some_bind]
    rw [hedge.2.2.1, if_neg (by rw [← hInv.size_ok]; omega), get?_eq_getp links _ hnext_lt]
    simp only [Option.bind_eq_bind, Option.some_bind]
    rfl

/-- Behaviour of the backtracking loop: from a window `(i, j]` it performs `k`
steps, stepping the left boundary back while possible and otherwise extending
the right boundary (returning `Sum.inl` if the chain ends). -/
theorem backtrack_spec {x : NumericVector} {p : Nat} {links : DoublyLinkedList}
    {c : List Nat} (hInv : Inv x p links c) :
    ∀ (k i j : Nat) (csum : ℚ), i ≤ j → j < c.length → csum = winSum links c i j →
    (∃ u, backtrack x links k csum (cgd c i) (cgd c j) = some (Sum.inl u)) ∨
    (∃ i2 j2, backtrack x links k csum (cgd c i) (cgd c j) =
        some (Sum.inr (winSum links c i2 j2, cgd c i2, cgd c j2)) ∧
      i2 ≤ j2 ∧ j2 < c.length ∧ j2 - i2 = (j - i) + k ∧ j ≤ j2 ∧ i2 ≤ i) := by
  intro k
  induction k with
  | zero =>
    intro i j csum hij hj hcsum
    right
    refine ⟨i, j, ?_, hij, hj, by omega, le_refl j, le_refl i⟩
    rw [hcsum]
    rfl
  | succ k ih =>
    intro i j csum hij hj hcsum
    by_cases hi : 0 < i
    · -- step the left boundary backward
      have hblt : cgd c i < links.size := by
        rw [hInv.size_ok]; exact hInv.cgd_lt_size (by omega)
      have hedge := hInv.edge (show (i - 1) + 1 < c.length by omega)
      have harith : i - 1 + 1 = i := by omega
      rw [harith] at hedge
      have hstep : backtrack x links (k + 1) csum (cgd c i) (cgd c j) =
          backtrack x links k (csum + (getp links (cgd c i)).pvdiff)
            (cgd c (i - 1)) (cgd c j) := by
        show (if 0 < cgd c i then _ else _) = _
        rw [if_pos (hInv.cgd_pos hi (by omega)), get?_eq_getp links _ hblt]
        simp only [Option.bind_eq_bind, Option.some_bind]
        rw [hedge.2.2.2.1]
      rw [hstep]
      have hcsum2 : csum + (getp links (cgd c i)).pvdiff = winSum links c (i - 1) j := by
        rw [hcsum, winSum_bot links c hi hij]
        ring
      rcases ih (i - 1) j _ (by omega) hj hcsum2 with h | ⟨i2, j2, hbt, h1, h2, h3, h4, h5⟩
      · exact Or.inl h
      · exact Or.inr ⟨i2, j2, hbt, h1, h2, by omega, h4, by omega⟩
    · -- left boundary is the head: extend the right boundary
      have hi0 : i = 0 := by omega
      have hczero : cgd c i = 0 := by rw [hi0, hInv.cgd_zero]
      have helt : cgd c j < links.size := by
        rw [hInv.size_ok]; exact hInv.cgd_lt_size hj
      by_cases hjlast : j = c.length - 1
      · -- the chain ends: early return
        left
        refine ⟨(), ?_⟩
        show (if 0 < cgd c i then _ else _) = _
        rw [if_neg (by omega), get?_eq_getp links _ helt]
        simp only [Option.bind_eq_bind, Option.some_bind]
        rw [hjlast, hInv.getLast_cgd, if_pos hInv.last_next]
        rfl
      · have hedge := hInv.edge (show j + 1 < c.length by omega)
        have hnlt : cgd c (j + 1) < links.size := by
          rw [hInv.size_ok]; exact hInv.cgd_lt_size (by omega)
        have hstep : backtrack x links (k + 1) csum (cgd c i) (cgd c j) =
            backtrack x links k (csum + (getp links (cgd c (j + 1))).pvdiff)
              (cgd c i) (cgd c (j + 1)) := by
          show (if 0 < cgd c i then _ else _) = _
          rw [if_neg (by omega), get?_eq_getp links _ helt]
          simp only [Option.bind_eq_bind, Option.some_bind]
          rw [hedge.2.2.1, if_neg (by rw [← hInv.size_ok]; omega),
            get?_eq_getp links _ hnlt]
          simp only [Option.bind_eq_bind, Option.some_bind]
        rw [hstep]
        have hcsum2 : csum + (getp links (cgd c (j + 1))).pvdiff =
            winSum links c i (j + 1) := by
          rw [hcsum, winSum_top links c hij]
        rcases ih i (j + 1) _ (by omega) (by omega) hcsum2 with
          h | ⟨i2, j2, hbt, h1, h2, h3, h4, h5⟩
        · exact Or.inl h
        · exact Or.inr ⟨i2, j2, hbt, h1, h2, by omega, by omega, h5⟩

/-- Master lemma for the main loop of `CheckShortIntervals`: given a window of
three chain edges at positions `(k, k+3)` with the correct checksum and enough
fuel, the loop terminates, preserves the invariant, and only ever removes
chain members. -/
theorem CSIloop_ok {x : NumericVector} {p : Nat} :
    ∀ (fuel : Nat) (links : DoublyLinkedList) (c : List Nat) (k : Nat) (csum : ℚ),
      Inv x p links c → k + 3 < c.length → csum = winSum links c k (k + 3) →
      2 * c.length + (c.length - (k + 3)) ≤ fuel →
      ∃ links2 c2, CSIloop x p fuel links csum (cgd c k) (cgd c (k + 3)) = some links2 ∧
        Inv x p links2 c2 ∧ List.Sublist c2 c := by
  intro fuel
  induction fuel with
  | zero =>
    intro links c k csum hInv hk hcsum hfuel
    exfalso
    omega
  | succ fuel ih =>
    intro links c k csum hInv hk hcsum hfuel
    have hblt : cgd c k < x.size := hInv.cgd_lt_size (by omega)
    have helt : cgd c (k + 3) < x.size := hInv.cgd_lt_size (by omega)
    have hxb := xget_eq x (cgd c k) hblt
    have hxe := xget_eq x (cgd c (k + 3)) helt
    by_cases hbranch :
        pvar_diff (x.getD (cgd c k) 0 - x.getD (cgd c (k + 3)) 0) p ≤ csum
    · -- keep branch: the middle points are significant
      by_cases hend : k + 3 = c.length - 1
      · have hadv := (advEnd_spec hInv (k + 3) (by omega) csum).1 hend
        refine ⟨links, c, ?_, hInv, List.Sublist.refl c⟩
        simp only [CSIloop, hxb, hxe, Option.bind_eq_bind, Option.some_bind,
          if_pos hbranch, hadv]
        rfl
      · have hadv := (advEnd_spec hInv (k + 3) (by omega) csum).2 (by omega)
        have hedgek := hInv.edge (show k + 1 < c.length by omega)
        have hblt2 : cgd c k < links.size := by rw [hInv.size_ok]; exact hblt
        have hmlt2 : cgd c (k + 1) < links.size := by
          rw [hInv.size_ok]; exact hInv.cgd_lt_size (by omega)
        have hcsum2 : csum + (getp links (cgd c (k + 3 + 1))).pvdiff -
            (getp links (cgd c (k + 1))).pvdiff = winSum links c (k + 1) (k + 4) := by
        -- winSum k (k+4) two ways
          have e1 : winSum links c k (k + 4) =
              winSum links c k (k + 3) + (getp links (cgd c (k + 4))).pvdiff := by
            have := winSum_top links c (show k ≤ k + 3 by omega)
            simpa using this
          have e2 : winSum links c k (k + 4) =
              (getp links (cgd c (k + 1))).pvdiff + winSum links c (k + 1) (k + 4) := by
            have := winSum_bot links c (show 0 < k + 1 by omega) (show k + 1 ≤ k + 4 by omega)
            simpa using this
          rw [hcsum]
          have e3 : k + 3 + 1 = k + 4 := by omega
          rw [e3]
          linarith
        obtain ⟨links2, c2, hrec, hInv2, hsub⟩ :=
          ih links c (k + 1) _ hInv (by omega) hcsum2 (by omega)
        refine ⟨links2, c2, ?_, hInv2, hsub⟩
        simp only [CSIloop, hxb, hxe, Option.bind_eq_bind, Option.some_bind,
          if_pos hbranch, hadv, get?_eq_getp links (cgd c k) hblt2, hedgek.2.2.1,
          get?_eq_getp links (cgd c (k + 1)) hmlt2]
        exact hrec
    · -- erase branch: excise the two middle points and backtrack
      set fj := pvar_diff (x.getD (cgd c k) 0 - x.getD (cgd c (k + 3)) 0) p with hfj
      have hblt2 : cgd c k < links.size := by rw [hInv.size_ok]; exact hblt
      have hl1 := modifyL_eq links (cgd c k)
        (fun d => { d with next := cgd c (k + 3) }) hblt2
      set l1 := links.set ⟨cgd c k, hblt2⟩
        ({ getp links (cgd c k) with next := cgd c (k + 3) }) with hl1def
      have helt2 : cgd c (k + 3) < l1.size := by
        rw [size_modifyL hl1, hInv.size_ok]; exact helt
      have hl2 := modifyL_eq l1 (cgd c (k + 3))
        (fun d => { d with prev := cgd c k, pvdiff := fj }) helt2
      set l2 := l1.set ⟨cgd c (k + 3), helt2⟩
        ({ getp l1 (cgd c (k + 3)) with prev := cgd c k, pvdiff := fj }) with hl2def
      have hInv2 : Inv x p l2 (c.take (k + 1) ++ c.drop (k + 3)) :=
        excise_ok hInv (show k < k + 3 by omega) hk
          (by rw [hfj, pvar_diff_comm]) hl1 hl2
      have hlen2 : (c.take (k + 1) ++ c.drop (k + 3)).length =
          k + 1 + (c.length - (k + 3)) := excise_length (by omega) hk
      have he' : cgd (c.take (k + 1) ++ c.drop (k + 3)) (k + 1) = cgd c (k + 3) := by
        rw [excise_cgd_high (show k < k + 3 by omega) hk (le_refl (k + 1)) (by omega)]
        congr 1
        omega
      have hk1len : k + 1 < (c.take (k + 1) ++ c.drop (k + 3)).length := by
        rw [hlen2]; omega
      have hbt0 := backtrack_spec hInv2 3 (k + 1) (k + 1) 0 (le_refl _) hk1len
        (winSum_self l2 _ (k + 1)).symm
      rw [he'] at hbt0
      rcases hbt0 with ⟨u, hbt⟩ | ⟨i2, j2, hbt, h1, h2, h3, h4, h5⟩
      · -- backtrack hit the sentinel: the loop returns
        refine ⟨l2, c.take (k + 1) ++ c.drop (k + 3), ?_, hInv2,
          excise_sublist (by omega)⟩
        simp only [CSIloop, hxb, hxe, Option.bind_eq_bind, Option.some_bind,
          if_neg hbranch, hl1, hl2, hbt]
        rfl
      · -- backtrack produced a fresh window at positions (i2, i2+3)
        have hj2 : j2 = i2 + 3 := by omega
        subst hj2
        obtain ⟨links3, c3, hrec, hInv3, hsub3⟩ :=
          ih l2 (c.take (k + 1) ++ c.drop (k + 3)) i2 _ hInv2 h2 rfl (by
            rw [hlen2]
            rw [hlen2] at h2
            omega)
        refine ⟨links3, c3, ?_, hInv3,
          hsub3.trans (excise_sublist (by omega))⟩
        simp only [CSIloop, hxb, hxe, Option.bind_eq_bind, Option.some_bind,
          if_neg hbranch, hl1, hl2, hbt]
        exact hrec

/-- Stage 2 result: `CheckShortIntervals` terminates within its fuel bound,
preserves the chain invariant, and only ever removes chain members. -/
theorem CheckShortIntervals_ok {x : NumericVector} {p : Nat} {links : DoublyLinkedList}
    {c : List Nat} (hInv : Inv x p links c) :
    ∃ links2 c2, CheckShortIntervals x links p = some links2 ∧ Inv x p links2 c2 ∧
      List.Sublist c2 c := by
  have hlpos : 0 < c.length := List.length_pos.mpr hInv.ne_nil
  by_cases h1 : c.length = 1
  · have hadv1 := (advEnd_spec hInv 0 (by omega) 0).1 (by omega)
    rw [hInv.cgd_zero] at hadv1
    refine ⟨links, c, ?_, hInv, List.Sublist.refl c⟩
    simp only [CheckShortIntervals, hadv1, Option.bind_eq_bind, Option.some_bind]
    rfl
  · have hadv1 := (advEnd_spec hInv 0 (by omega) 0).2 (by omega)
    rw [hInv.cgd_zero] at hadv1
    norm_num at hadv1
    by_cases h2 : c.length = 2
    · have hadv2 := (advEnd_spec hInv 1 (by omega)
        ((getp links (cgd c 1)).pvdiff)).1 (by omega)
      refine ⟨links, c, ?_, hInv, List.Sublist.refl c⟩
      simp only [CheckShortIntervals, hadv1, hadv2, Option.bind_eq_bind, Option.some_bind]
      rfl
    · have hadv2 := (advEnd_spec hInv 1 (by omega)
        ((getp links (cgd c 1)).pvdiff)).2 (by omega)
      norm_num at hadv2
      by_cases h3 : c.length = 3
      · have hadv3 := (advEnd_spec hInv 2 (by omega)
          ((getp links (cgd c 1)).pvdiff + (getp links (cgd c 2)).pvdiff)).1 (by omega)
        refine ⟨links, c, ?_, hInv, List.Sublist.refl c⟩
        simp only [CheckShortIntervals, hadv1, hadv2, hadv3, Option.bind_eq_bind,
          Option.some_bind]
        rfl
      · have hadv3 := (advEnd_spec hInv 2 (by omega)
          ((getp links (cgd c 1)).pvdiff + (getp links (cgd c 2)).pvdiff)).2 (by omega)
        norm_num at hadv3
        have hcsum : (getp links (cgd c 1)).pvdiff + (getp links (cgd c 2)).pvdiff +
            (getp links (cgd c 3)).pvdiff = winSum links c 0 3 := by
          rw [show (3 : Nat) = 2 + 1 from rfl, winSum_top links c (by omega),
            show (2 : Nat) = 1 + 1 from rfl, winSum_top links c (by omega),
            show (1 : Nat) = 0 + 1 from rfl, winSum_top links c (by omega),
            winSum_self]
          ring
        obtain ⟨links2, c2, hrec, hInv2, hsub⟩ := CSIloop_ok (3 * x.size + 3) links c 0
          ((getp links (cgd c 1)).pvdiff + (getp links (cgd c 2)).pvdiff +
            (getp links (cgd c 3)).pvdiff)
          hInv (by omega) (by exact hcsum) (by
            have := hInv.length_le
            omega)
        rw [hInv.cgd_zero] at hrec
        norm_num at hrec
        refine ⟨links2, c2, ?_, hInv2, hsub⟩
        simp only [CheckShortIntervals, hadv1, hadv2, hadv3, Option.bind_eq_bind,
          Option.some_bind]
        exact hrec

/-! ## MergeIntervalsRecursively preserves the invariant and terminates -/

theorem cgd_inj {x : NumericVector} {p : Nat} {links : DoublyLinkedList}
    {c : List Nat} (hInv : Inv x p links c) {s t : Nat} (hs : s < c.length)
    (ht : t < c.length) (h : cgd c s = cgd c t) : s = t := by
  rcases Nat.lt_trichotomy s t with hlt | heq | hgt
  · exact absurd h (Nat.ne_of_lt (hInv.get_mono hlt ht))
  · exact heq
  · exact absurd h.symm (Nat.ne_of_lt (hInv.get_mono hgt hs))

/-- The backward candidate walk visits exactly the chain positions in
`[pa, pv)`; every collected candidate is one of these chain members. -/
theorem walkBack_spec {x : NumericVector} {p : Nat} {links : DoublyLinkedList}
    {c : List Nat} (hInv : Inv x p links c) (pa : Nat) :
    ∀ (fuel pv : Nat) (ev amin amax : ℚ) (mins maxs : List pvtemppoint),
      pa ≤ pv → pv < c.length → pv - pa < fuel →
      ∃ mins2 maxs2,
        walkBack x links (cgd c pa) fuel (cgd c pv) ev amin amax mins maxs =
          some (mins2, maxs2) ∧
        (∀ q ∈ mins2, q ∈ mins ∨ ∃ t, pa ≤ t ∧ t < pv ∧ q.it = cgd c t) ∧
        (∀ q ∈ maxs2, q ∈ maxs ∨ ∃ t, pa ≤ t ∧ t < pv ∧ q.it = cgd c t) := by
  intro fuel
  induction fuel with
  | zero =>
    intro pv ev amin amax mins maxs hpa hpv hfuel
    omega
  | succ fuel ih =>
    intro pv ev amin amax mins maxs hpa hpv hfuel
    by_cases heq : pv = pa
    · subst heq
      refine ⟨mins, maxs, ?_, fun q hq => Or.inl hq, fun q hq => Or.inl hq⟩
      simp only [walkBack, if_pos rfl]
      rfl
    · have hpalt : pa < pv := by omega
      have hne : cgd c pv ≠ cgd c pa := by
        intro h
        exact heq (cgd_inj hInv hpv (by omega) h)
      have hvlt : cgd c pv < links.size := by
        rw [hInv.size_ok]; exact hInv.cgd_lt_size hpv
      have hedge := hInv.edge (show pv - 1 + 1 < c.length by omega)
      have harith : pv - 1 + 1 = pv := by omega
      rw [harith] at hedge
      have hplt : cgd c (pv - 1) < x.size := hInv.cgd_lt_size (by omega)
      obtain ⟨mins2, maxs2, hrec, hm, hM⟩ := ih (pv - 1) (ev + (getp links (cgd c pv)).pvdiff)
        (if x.getD (cgd c (pv - 1)) 0 < amin then x.getD (cgd c (pv - 1)) 0 else amin)
        (if amax < x.getD (cgd c (pv - 1)) 0 then x.getD (cgd c (pv - 1)) 0 else amax)
        (if x.getD (cgd c (pv - 1)) 0 < amin then
          mins ++ [⟨cgd c (pv - 1), ev + (getp links (cgd c pv)).pvdiff⟩] else mins)
        (if amax < x.getD (cgd c (pv - 1)) 0 then
          maxs ++ [⟨cgd c (pv - 1), ev + (getp links (cgd c pv)).pvdiff⟩] else maxs)
        (by omega) (by omega) (by omega)
      refine ⟨mins2, maxs2, ?_, ?_, ?_⟩
      · simp only [walkBack, if_neg hne, get?_eq_getp links _ hvlt,
          Option.bind_eq_bind, Option.some_bind]
        rw [hedge.2.2.2.1]
        simp only [xget_eq x _ hplt, Option.bind_eq_bind, Option.some_bind]
        by_cases hc1 : amax < x.getD (cgd c (pv - 1)) 0 <;>
          by_cases hc2 : x.getD (cgd c (pv - 1)) 0 < amin <;>
          simp only [hc1, hc2, if_true, if_false] at hrec ⊢ <;>
          exact hrec
      · intro q hq
        rcases hm q hq with hq2 | ⟨t, ht1, ht2, ht3⟩
        · by_cases hc : x.getD (cgd c (pv - 1)) 0 < amin
          · rw [if_pos hc] at hq2
            rcases List.mem_append.mp hq2 with h | h
            · exact Or.inl h
            · simp at h
              exact Or.inr ⟨pv - 1, by omega, by omega, by rw [h]⟩
          · rw [if_neg hc] at hq2
            exact Or.inl hq2
        · exact Or.inr ⟨t, ht1, by omega, ht3⟩
      · intro q hq
        rcases hM q hq with hq2 | ⟨t, ht1, ht2, ht3⟩
        · by_cases hc : amax < x.getD (cgd c (pv - 1)) 0
          · rw [if_pos hc] at hq2
            rcases List.mem_append.mp hq2 with h | h
            · exact Or.inl h
            · simp at h
              exact Or.inr ⟨pv - 1, by omega, by omega, by rw [h]⟩
          · rw [if_neg hc] at hq2
            exact Or.inl hq2
        · exact Or.inr ⟨t, ht1, by omega, ht3⟩

/-- The forward candidate walk visits exactly the chain positions in
`(pv, pb]`; every collected candidate is one of these chain members. -/
theorem walkFwd_spec {x : NumericVector} {p : Nat} {links : DoublyLinkedList}
    {c : List Nat} (hInv : Inv x p links c) (pb : Nat) (hpb : pb < c.length) :
    ∀ (fuel pv : Nat) (ev bmin bmax : ℚ) (mins maxs : List pvtemppoint),
      pv ≤ pb → pb - pv < fuel →
      ∃ mins2 maxs2,
        walkFwd x links (cgd c pb) fuel (cgd c pv) ev bmin bmax mins maxs =
          some (mins2, maxs2) ∧
        (∀ q ∈ mins2, q ∈ mins ∨ ∃ t, pv < t ∧ t ≤ pb ∧ q.it = cgd c t) ∧
        (∀ q ∈ maxs2, q ∈ maxs ∨ ∃ t, pv < t ∧ t ≤ pb ∧ q.it = cgd c t) := by
  intro fuel
  induction fuel with
  | zero =>
    intro pv ev bmin bmax mins maxs hpv hfuel
    omega
  | succ fuel ih =>
    intro pv ev bmin bmax mins maxs hpv hfuel
    by_cases heq : pv = pb
    · subst heq
      refine ⟨mins, maxs, ?_, fun q hq => Or.inl hq, fun q hq => Or.inl hq⟩
      simp only [walkFwd, if_pos rfl]
      rfl
    · have hpblt : pv < pb := by omega
      have hne : cgd c pv ≠ cgd c pb := by
        intro h
        exact heq (cgd_inj hInv (by omega) hpb h)
      have hvlt : cgd c pv < links.size := by
        rw [hInv.size_ok]; exact hInv.cgd_lt_size (by omega)
      have hedge := hInv.edge (show pv + 1 < c.length by omega)
      have hnlt : cgd c (pv + 1) < links.size := by
        rw [hInv.size_ok]; exact hInv.cgd_lt_size (by omega)
      have hplt : cgd c (pv + 1) < x.size := hInv.cgd_lt_size (by omega)
      obtain ⟨mins2, maxs2, hrec, hm, hM⟩ := ih (pv + 1)
        (ev + (getp links (cgd c (pv + 1))).pvdiff)
        (if x.getD (cgd c (pv + 1)) 0 < bmin then x.getD (cgd c (pv + 1)) 0 else bmin)
        (if bmax < x.getD (cgd c (pv + 1)) 0 then x.getD (cgd c (pv + 1)) 0 else bmax)
        (if x.getD (cgd c (pv + 1)) 0 < bmin then
          mins ++ [⟨cgd c (pv + 1), ev + (getp links (cgd c (pv + 1))).pvdiff⟩] else mins)
        (if bmax < x.getD (cgd c (pv + 1)) 0 then
          maxs ++ [⟨cgd c (pv + 1), ev + (getp links (cgd c (pv + 1))).pvdiff⟩] else maxs)
        (by omega) (by omega)
      refine ⟨mins2, maxs2, ?_, ?_, ?_⟩
      · simp only [walkFwd, if_neg hne, get?_eq_getp links _ hvlt,
          Option.bind_eq_bind, Option.some_bind]
        rw [hedge.2.2.1]
        simp only [get?_eq_getp links _ hnlt, xget_eq x _ hplt,
          Option.bind_eq_bind, Option.some_bind]
        by_cases hc1 : bmax < x.getD (cgd c (pv + 1)) 0 <;>
          by_cases hc2 : x.getD (cgd c (pv + 1)) 0 < bmin <;>
          simp only [hc1, hc2, if_true, if_false] at hrec ⊢ <;>
          exact hrec
      · intro q hq
        rcases hm q hq with hq2 | ⟨t, ht1, ht2, ht3⟩
        · by_cases hc : x.getD (cgd c (pv + 1)) 0 < bmin
          · rw [if_pos hc] at hq2
            rcases List.mem_append.mp hq2 with h | h
            · exact Or.inl h
            · simp at h
              exact Or.inr ⟨pv + 1, by omega, by omega, by rw [h]⟩
          · rw [if_neg hc] at hq2
            exact Or.inl hq2
        · exact Or.inr ⟨t, by omega, ht2, ht3⟩
      · intro q hq
        rcases hM q hq with hq2 | ⟨t, ht1, ht2, ht3⟩
        · by_cases hc : bmax < x.getD (cgd c (pv + 1)) 0
          · rw [if_pos hc] at hq2
            rcases List.mem_append.mp hq2 with h | h
            · exact Or.inl h
            · simp at h
              exact Or.inr ⟨pv + 1, by omega, by omega, by rw [h]⟩
          · rw [if_neg hc] at hq2
            exact Or.inl hq2
        · exact Or.inr ⟨t, by omega, ht2, ht3⟩

/-- Property maintained by the joint-search state: whenever a positive balance
has been recorded, the winning pair is a genuine left/right candidate pair and
`takefjoin` is its direct-jump value. -/
def ScanQ (x : NumericVector) (p : Nat) (A B : Nat → Prop) (st : ScanSt) : Prop :=
  0 < st.maxbalance →
    st.takefjoin = pvar_diff (x.getD st.tait 0 - x.getD st.tbit 0) p ∧
    A st.tait ∧ B st.tbit

theorem scanInner_spec {x : NumericVector} {p : Nat} (A B : Nat → Prop)
    (apt : pvtemppoint) (hA : A apt.it) (haz : apt.it < x.size) :
    ∀ (l : List pvtemppoint) (j : Nat) (st : ScanSt),
      (∀ q ∈ l, B q.it ∧ q.it < x.size) → ScanQ x p A B st →
      ∃ st2, scanInner x p apt l j st = some st2 ∧ ScanQ x p A B st2 := by
  intro l
  induction l with
  | nil =>
    intro j st _ hQ
    exact ⟨st, rfl, hQ⟩
  | cons bpt rest ih =>
    intro j st hB hQ
    have hb := hB bpt (by simp)
    have hrest : ∀ q ∈ rest, B q.it ∧ q.it < x.size := fun q hq => hB q (by simp [hq])
    have hQ1 : ScanQ x p A B
        (if st.maxbalance <
            pvar_diff (x.getD apt.it 0 - x.getD bpt.it 0) p - bpt.ev - apt.ev then
          (⟨pvar_diff (x.getD apt.it 0 - x.getD bpt.it 0) p - bpt.ev - apt.ev,
            pvar_diff (x.getD apt.it 0 - x.getD bpt.it 0) p, apt.it, bpt.it, j⟩ : ScanSt)
        else st) := by
      by_cases hcond : st.maxbalance <
          pvar_diff (x.getD apt.it 0 - x.getD bpt.it 0) p - bpt.ev - apt.ev
      · rw [if_pos hcond]
        intro _
        exact ⟨rfl, hA, hb.1⟩
      · rw [if_neg hcond]
        exact hQ
    obtain ⟨st2, hrec, hQ2⟩ := ih (j + 1) _ hrest hQ1
    refine ⟨st2, ?_, hQ2⟩
    simp only [scanInner, xget_eq x apt.it haz, xget_eq x bpt.it hb.2,
      Option.bind_eq_bind, Option.some_bind]
    exact hrec

theorem scanOuter_spec {x : NumericVector} {p : Nat} (A B : Nat → Prop)
    (bs : List pvtemppoint) (hB : ∀ q ∈ bs, B q.it ∧ q.it < x.size) :
    ∀ (l : List pvtemppoint) (st : ScanSt),
      (∀ q ∈ l, A q.it ∧ q.it < x.size) → ScanQ x p A B st →
      ∃ st2, scanOuter x p bs l st = some st2 ∧ ScanQ x p A B st2 := by
  intro l
  induction l with
  | nil =>
    intro st _ hQ
    exact ⟨st, rfl, hQ⟩
  | cons apt rest ih =>
    intro st hA hQ
    have ha := hA apt (by simp)
    have hrest : ∀ q ∈ rest, A q.it ∧ q.it < x.size := fun q hq => hA q (by simp [hq])
    have hdrop : ∀ q ∈ bs.drop st.sbit, B q.it ∧ q.it < x.size := fun q hq =>
      hB q ((List.drop_sublist st.sbit bs).subset hq)
    obtain ⟨st1, hinner, hQ1⟩ := scanInner_spec A B apt ha.1 ha.2
      (bs.drop st.sbit) st.sbit st hdrop hQ
    obtain ⟨st2, hout, hQ2⟩ := ih st1 hrest hQ1
    refine ⟨st2, ?_, hQ2⟩
    simp only [scanOuter, hinner, Option.bind_eq_bind, Option.some_bind]
    exact hout

theorem cgd_mem_take {c : List Nat} {t k : Nat} (ht : t < k) (htl : t < c.length) :
    cgd c t ∈ c.take k := by
  have hlen : t < (c.take k).length := by
    simp [List.length_take]
    omega
  have hget : (c.take k).get ⟨t, hlen⟩ = cgd c t := by
    rw [cgd_eq_get c t htl, List.get_eq_getElem, List.get_eq_getElem, List.getElem_take]
  rw [← hget]
  exact (c.take k).get_mem t hlen

theorem cgd_mem_drop {c : List Nat} {t k : Nat} (hk : k ≤ t) (htl : t < c.length) :
    cgd c t ∈ c.drop k := by
  have hlen : t - k < (c.drop k).length := by
    simp [List.length_drop]
    omega
  have hget : (c.drop k).get ⟨t - k, hlen⟩ = cgd c t := by
    rw [cgd_eq_get c t htl, List.get_eq_getElem, List.get_eq_getElem]
    simp only [List.getElem_drop]
    congr 1
    omega
  rw [← hget]
  exact (c.drop k).get_mem _ hlen

/-- `Merge2GoodInt` on chain members `a ≤ v ≤ b` succeeds, preserves the
invariant, only removes members, and keeps every member outside the open
interval `(a, b)`. -/
theorem Merge2GoodInt_ok {x : NumericVector} {p : Nat} {links : DoublyLinkedList}
    {c : List Nat} (hInv : Inv x p links c) {pa pv pb : Nat}
    (hav : pa ≤ pv) (hvb : pv ≤ pb) (hpb : pb < c.length) :
    ∃ links2 c2, Merge2GoodInt x p links (cgd c pa) (cgd c pv) (cgd c pb) = some links2 ∧
      Inv x p links2 c2 ∧ List.Sublist c2 c ∧
      (∀ m ∈ c, m ≤ cgd c pa ∨ cgd c pb ≤ m → m ∈ c2) := by
  by_cases hdeg : cgd c pa = cgd c pv ∨ cgd c pv = cgd c pb
  · refine ⟨links, c, ?_, hInv, List.Sublist.refl c, fun m hm _ => hm⟩
    unfold Merge2GoodInt
    rw [if_pos hdeg]
    rfl
  · push_neg at hdeg
    have hpav : pa < pv := by
      rcases Nat.eq_or_lt_of_le hav with h | h
      · exact absurd (by rw [h]) hdeg.1
      · exact h
    have hpvb : pv < pb := by
      rcases Nat.eq_or_lt_of_le hvb with h | h
      · exact absurd (by rw [h]) hdeg.2
      · exact h
    have hvsize : cgd c pv < x.size := hInv.cgd_lt_size (by omega)
    have hfuelA : pv - pa < links.size + 1 := by
      have := hInv.length_le
      rw [hInv.size_ok]
      omega
    have hfuelB : pb - pv < links.size + 1 := by
      have := hInv.length_le
      rw [hInv.size_ok]
      omega
    obtain ⟨avm, avM, hwb, havm, havM⟩ := walkBack_spec hInv pa (links.size + 1) pv 0
      (x.getD (cgd c pv) 0) (x.getD (cgd c pv) 0) [] [] (by omega) (by omega) hfuelA
    obtain ⟨vbm, vbM, hwf, hvbm, hvbM⟩ := walkFwd_spec hInv pb hpb (links.size + 1) pv 0
      (x.getD (cgd c pv) 0) (x.getD (cgd c pv) 0) [] [] (by omega) hfuelB
    -- candidate predicates: chain positions in [pa, pv) resp. (pv, pb]
    set A := fun it => ∃ t, pa ≤ t ∧ t < pv ∧ it = cgd c t with hA
    set B := fun it => ∃ t, pv < t ∧ t ≤ pb ∧ it = cgd c t with hB
    have hAlt : ∀ q ∈ avm, A q.it ∧ q.it < x.size := by
      intro q hq
      rcases havm q hq with h | ⟨t, h1, h2, h3⟩
      · simp at h
      · exact ⟨⟨t, h1, h2, h3⟩, by rw [h3]; exact hInv.cgd_lt_size (by omega)⟩
    have hAlt2 : ∀ q ∈ avM, A q.it ∧ q.it < x.size := by
      intro q hq
      rcases havM q hq with h | ⟨t, h1, h2, h3⟩
      · simp at h
      · exact ⟨⟨t, h1, h2, h3⟩, by rw [h3]; exact hInv.cgd_lt_size (by omega)⟩
    have hBlt : ∀ q ∈ vbm, B q.it ∧ q.it < x.size := by
      intro q hq
      rcases hvbm q hq with h | ⟨t, h1, h2, h3⟩
      · simp at h
      · exact ⟨⟨t, h1, h2, h3⟩, by rw [h3]; exact hInv.cgd_lt_size (by omega)⟩
    have hBlt2 : ∀ q ∈ vbM, B q.it ∧ q.it < x.size := by
      intro q hq
      rcases hvbM q hq with h | ⟨t, h1, h2, h3⟩
      · simp at h
      · exact ⟨⟨t, h1, h2, h3⟩, by rw [h3]; exact hInv.cgd_lt_size (by omega)⟩
    obtain ⟨st1, hscan1, hQ1⟩ := scanOuter_spec A B vbM hBlt2 avm
      (⟨0, 0, 0, 0, 0⟩ : ScanSt) hAlt (by intro h; simp at h)
    obtain ⟨st2, hscan2, hQ2⟩ := scanOuter_spec A B vbm hBlt avM
      { st1 with sbit := 0 } hAlt2 (by
        intro h
        exact hQ1 h)
    by_cases hbal : 0 < st2.maxbalance
    · -- a positive balance: excise everything between the winning joint
      obtain ⟨hfj, ⟨ta, hta1, hta2, hta3⟩, ⟨tb, htb1, htb2, htb3⟩⟩ := hQ2 hbal
      have htalt : st2.tait < links.size := by
        rw [hInv.size_ok, hta3]
        exact hInv.cgd_lt_size (by omega)
      have hl1 := modifyL_eq links st2.tait (fun d => { d with next := st2.tbit }) htalt
      set l1 := links.set ⟨st2.tait, htalt⟩
        ({ getp links st2.tait with next := st2.tbit }) with hl1def
      have htblt : st2.tbit < l1.size := by
        rw [size_modifyL hl1, hInv.size_ok, htb3]
        exact hInv.cgd_lt_size (by omega)
      have hl2 := modifyL_eq l1 st2.tbit
        (fun d => { d with prev := st2.tait, pvdiff := st2.takefjoin }) htblt
      set l2 := l1.set ⟨st2.tbit, htblt⟩
        ({ getp l1 st2.tbit with prev := st2.tait, pvdiff := st2.takefjoin }) with hl2def
      have hl1b := hl1
      have hl2b := hl2
      rw [hta3, htb3] at hl1b
      rw [hta3, htb3] at hl2b
      have hInv2 : Inv x p l2 (c.take (ta + 1) ++ c.drop tb) :=
        excise_ok hInv (show ta < tb by omega) (by omega)
          (by rw [hfj, hta3, htb3, pvar_diff_comm]) hl1b hl2b
      refine ⟨l2, c.take (ta + 1) ++ c.drop tb, ?_, hInv2,
        excise_sublist (by omega), ?_⟩
      · unfold Merge2GoodInt
        rw [if_neg (by push_neg; exact hdeg)]
        simp only [xget_eq x (cgd c pv) hvsize, Option.bind_eq_bind, Option.some_bind,
          hwb, hwf, hscan1, hscan2, if_pos hbal, hl1, hl2]
        rfl
      · -- members outside (a, b) survive the excision
        intro m hm hout
        obtain ⟨⟨tm, htm⟩, hmval⟩ := List.mem_iff_get.mp hm
        have hmc : m = cgd c tm := by rw [cgd_eq_get c tm htm, hmval]
        rcases hout with hle | hge
        · have htma : tm ≤ pa := by
            by_contra hgt
            push_neg at hgt
            have hlt := hInv.get_mono hgt htm
            rw [← hmc] at hlt
            omega
          refine List.mem_append.mpr (Or.inl ?_)
          rw [hmc]
          exact cgd_mem_take (by omega) htm
        · have htmb : pb ≤ tm := by
            by_contra hgt
            push_neg at hgt
            have hlt := hInv.get_mono hgt hpb
            rw [← hmc] at hlt
            omega
          refine List.mem_append.mpr (Or.inr ?_)
          rw [hmc]
          exact cgd_mem_drop (by omega) htm
    · refine ⟨links, c, ?_, hInv, List.Sublist.refl c, fun m hm _ => hm⟩
      unfold Merge2GoodInt
      rw [if_neg (by push_neg; exact hdeg)]
      simp only [xget_eq x (cgd c pv) hvsize, Option.bind_eq_bind, Option.some_bind,
        hwb, hwf, hscan1, hscan2, if_neg hbal]
      rfl

theorem mem_pos {x : NumericVector} {p : Nat} {links : DoublyLinkedList}
    {c : List Nat} (hInv : Inv x p links c) {m : Nat} (hm : m ∈ c) :
    ∃ t, t < c.length ∧ m = cgd c t := by
  obtain ⟨⟨tm, htm⟩, hmval⟩ := List.mem_iff_get.mp hm
  exact ⟨tm, htm, by rw [cgd_eq_get c tm htm, hmval]⟩

theorem pos_le_of_le {x : NumericVector} {p : Nat} {links : DoublyLinkedList}
    {c : List Nat} (hInv : Inv x p links c) {s t : Nat} (hs : s < c.length)
    (ht : t < c.length) (h : cgd c s ≤ cgd c t) : s ≤ t := by
  by_contra hgt
  push_neg at hgt
  have := hInv.get_mono hgt hs
  omega

/-- One merging pass over the boundary list preserves the invariant, keeps all
remaining boundaries in the chain, shrinks the list when it had at least three
entries, keeps its endpoints, and keeps every chain member not exceeding the
first boundary. -/
theorem mergeRound_ok {x : NumericVector} {p : Nat} :
    ∀ (n : Nat) (bl : List Nat), bl.length ≤ n →
      ∀ (links : DoublyLinkedList) (c : List Nat), Inv x p links c →
      (∀ m ∈ bl, m ∈ c) → bl.Chain' (· ≤ ·) →
      ∃ bl2 links2 c2, mergeRound x p links bl = some (bl2, links2) ∧
        Inv x p links2 c2 ∧ List.Sublist c2 c ∧
        (∀ m ∈ bl2, m ∈ c2) ∧ bl2.Chain' (· ≤ ·) ∧
        bl2.head? = bl.head? ∧ bl2.getLast? = bl.getLast? ∧
        bl2.length ≤ bl.length ∧ (3 ≤ bl.length → bl2.length < bl.length) ∧
        (∀ m ∈ c, m ≤ bl.headD 0 → m ∈ c2) := by
  intro n
  induction n with
  | zero =>
    intro bl hlen links c hInv hmem hch
    have : bl = [] := List.length_eq_zero.mp (by omega)
    subst this
    exact ⟨[], links, c, rfl, hInv, List.Sublist.refl c, by simp, List.chain'_nil,
      rfl, rfl, le_refl _, by simp, fun m hm _ => hm⟩
  | succ n ih =>
    intro bl hlen links c hInv hmem hch
    rcases bl with _ | ⟨a, bl⟩
    · exact ⟨[], links, c, rfl, hInv, List.Sublist.refl c, by simp, List.chain'_nil,
        rfl, rfl, le_refl _, by simp, fun m hm _ => hm⟩
    rcases bl with _ | ⟨v, bl⟩
    · exact ⟨[a], links, c, rfl, hInv, List.Sublist.refl c, hmem, hch,
        rfl, rfl, le_refl _, by simp, fun m hm _ => hm⟩
    rcases bl with _ | ⟨b, rest⟩
    · exact ⟨[a, v], links, c, rfl, hInv, List.Sublist.refl c, hmem, hch,
        rfl, rfl, le_refl _, by simp, fun m hm _ => hm⟩
    -- the genuine three-or-more case
    have hpw : (a :: v :: b :: rest).Pairwise (· ≤ ·) := List.chain'_iff_pairwise.mp hch
    have hma : a ∈ c := hmem a (by simp)
    have hmv : v ∈ c := hmem v (by simp)
    have hmb : b ∈ c := hmem b (by simp)
    have hab : a ≤ v := (List.pairwise_cons.mp hpw).1 v (by simp)
    have hvb : v ≤ b :=
      (List.pairwise_cons.mp (List.pairwise_cons.mp hpw).2).1 b (by simp)
    obtain ⟨pa, hpa, ha3⟩ := mem_pos hInv hma
    obtain ⟨pv, hpv, hv3⟩ := mem_pos hInv hmv
    obtain ⟨pb, hpb, hb3⟩ := mem_pos hInv hmb
    have hpav : pa ≤ pv := pos_le_of_le hInv hpa hpv (by rw [← ha3, ← hv3]; exact hab)
    have hpvb : pv ≤ pb := pos_le_of_le hInv hpv hpb (by rw [← hv3, ← hb3]; exact hvb)
    obtain ⟨links1, c1, hmerge, hInv1, hsub1, hsurv1⟩ :=
      Merge2GoodInt_ok hInv hpav hpvb hpb
    rw [← ha3, ← hv3, ← hb3] at hmerge
    rw [← ha3, ← hb3] at hsurv1
    have hmem1 : ∀ m ∈ b :: rest, m ∈ c1 := by
      intro m hm
      have hmc : m ∈ c := hmem m (by simp at hm ⊢; tauto)
      refine hsurv1 m hmc (Or.inr ?_)
      rcases List.mem_cons.mp hm with h | h
      · omega
      · exact (List.pairwise_cons.mp
          (List.pairwise_cons.mp (List.pairwise_cons.mp hpw).2).2).1 m h
    have hch1 : (b :: rest).Chain' (· ≤ ·) := (List.chain'_cons'.mp
      (List.chain'_cons'.mp hch).2).2
    obtain ⟨tail2, links2, c2, hrec, hInv2, hsub2, hmem2, hch2, hhead2, hlast2,
      hlen2, _, hsurv2⟩ := ih (b :: rest) (by simp at hlen ⊢; omega) links1 c1 hInv1
        hmem1 hch1
    have hbc2 : ∀ m ∈ c1, m ≤ b → m ∈ c2 := by
      intro m hm hmb2
      exact hsurv2 m hm (by simpa using hmb2)
    have hac2 : a ∈ c2 := hbc2 a (hsurv1 a hma (Or.inl (le_refl a))) (by omega)
    have htail2_ne : tail2 ≠ [] := by
      intro h0
      rw [h0] at hhead2
      simp at hhead2
    refine ⟨a :: tail2, links2, c2, ?_, hInv2, hsub2.trans hsub1, ?_, ?_, rfl, ?_,
      ?_, ?_, ?_⟩
    · simp only [mergeRound, hmerge, Option.bind_eq_bind, Option.some_bind, hrec]
      rfl
    · intro m hm
      rcases List.mem_cons.mp hm with h | h
      · rw [h]; exact hac2
      · exact hmem2 m h
    · rw [List.chain'_cons']
      refine ⟨?_, hch2⟩
      intro y hy
      rw [hhead2] at hy
      simp at hy
      omega
    · rcases tail2 with _ | ⟨t0, ttail⟩
      · exact absurd rfl htail2_ne
      · rw [List.getLast?_cons_cons, hlast2, List.getLast?_cons_cons,
          List.getLast?_cons_cons]
    · simp only [List.length_cons] at *
      omega
    · intro _
      simp only [List.length_cons] at *
      omega
    · intro m hm hma2
      simp only [List.headD_cons] at hma2
      refine hbc2 m (hsurv1 m hm (Or.inl hma2)) (by omega)

/-- The outer merge loop terminates (its fuel covers the shrinking boundary
list) and preserves the invariant. -/
theorem mergeLoop_ok {x : NumericVector} {p : Nat} :
    ∀ (fuel : Nat) (bl : List Nat) (links : DoublyLinkedList) (c : List Nat),
      Inv x p links c → (∀ m ∈ bl, m ∈ c) → bl.Chain' (· ≤ ·) →
      bl.length ≤ fuel + 2 →
      ∃ bl2 links2 c2, mergeLoop x p fuel bl links = some (bl2, links2) ∧
        Inv x p links2 c2 ∧ List.Sublist c2 c := by
  intro fuel
  induction fuel with
  | zero =>
    intro bl links c hInv hmem hch hlen
    refine ⟨bl, links, c, ?_, hInv, List.Sublist.refl c⟩
    simp only [mergeLoop, if_neg (by omega : ¬ 2 < bl.length)]
    rfl
  | succ fuel ih =>
    intro bl links c hInv hmem hch hlen
    by_cases hgt : 2 < bl.length
    · obtain ⟨bl1, links1, c1, hround, hInv1, hsub1, hmem1, hch1, _, _, _, hdec, _⟩ :=
        mergeRound_ok bl.length bl (le_refl _) links c hInv hmem hch
      obtain ⟨bl2, links2, c2, hloop, hInv2, hsub2⟩ := ih bl1 links1 c1 hInv1 hmem1 hch1
        (by have := hdec (by omega); omega)
      refine ⟨bl2, links2, c2, ?_, hInv2, hsub2.trans hsub1⟩
      simp only [mergeLoop, if_pos hgt, hround, Option.bind_eq_bind, Option.some_bind]
      exact hloop
    · refine ⟨bl, links, c, ?_, hInv, List.Sublist.refl c⟩
      simp only [mergeLoop, if_neg hgt]
      rfl

/-- The boundary-list construction walk: starting at chain position `t`, it
returns the accumulator extended by the members at every `LSI`-th subsequent
position, in increasing order. -/
theorem buildIter_spec {x : NumericVector} {p : Nat} {links : DoublyLinkedList}
    {c : List Nat} (hInv : Inv x p links c) (LSI : Nat) :
    ∀ (fuel t count : Nat) (acc : List Nat), t < c.length → c.length - t < fuel →
      ∃ extra, buildIter x links LSI fuel (cgd c t) count acc = some (acc ++ extra) ∧
        (∀ m ∈ extra, ∃ tm, t ≤ tm ∧ tm < c.length ∧ m = cgd c tm) ∧
        extra.Chain' (· < ·) ∧
        (count % LSI = 0 → extra.head? = some (cgd c t)) := by
  intro fuel
  induction fuel with
  | zero =>
    intro t count acc ht hfuel
    omega
  | succ fuel ih =>
    intro t count acc ht hfuel
    have htx : cgd c t < x.size := hInv.cgd_lt_size ht
    have htl : cgd c t < links.size := by rw [hInv.size_ok]; exact htx
    by_cases hlast : t = c.length - 1
    · -- final member: one more step reaches the sentinel
      have hnext : (getp links (cgd c t)).next = x.size := by
        rw [hlast, hInv.getLast_cgd]
        exact hInv.last_next
      refine ⟨if count % LSI = 0 then [cgd c t] else [], ?_, ?_, ?_, ?_⟩
      · simp only [buildIter, if_pos htx, get?_eq_getp links _ htl,
          Option.bind_eq_bind, Option.some_bind, hnext]
        rcases Nat.lt_or_ge 0 fuel with hf | hf
        · rcases Nat.exists_eq_add_of_lt hf with ⟨fuel2, hf2⟩
          subst hf2
          simp only [buildIter, if_neg (by omega : ¬ x.size < x.size)]
          by_cases hc : count % LSI = 0 <;> simp [hc]
        · omega
      · intro m hm
        by_cases hc : count % LSI = 0
        · rw [if_pos hc] at hm
          simp at hm
          exact ⟨t, le_refl t, ht, hm⟩
        · rw [if_neg hc] at hm
          simp at hm
      · by_cases hc : count % LSI = 0
        · rw [if_pos hc]
          exact List.chain'_singleton _
        · rw [if_neg hc]
          exact List.chain'_nil
      · intro hc
        rw [if_pos hc]
        rfl
    · have hedge := hInv.edge (show t + 1 < c.length by omega)
      obtain ⟨extra, hrec, hmem, hch, hhead⟩ := ih (t + 1) (count + 1)
        (if count % LSI = 0 then acc ++ [cgd c t] else acc) (by omega) (by omega)
      refine ⟨(if count % LSI = 0 then [cgd c t] else []) ++ extra, ?_, ?_, ?_, ?_⟩
      · simp only [buildIter, if_pos htx, get?_eq_getp links _ htl,
          Option.bind_eq_bind, Option.some_bind, hedge.2.2.1]
        by_cases hc : count % LSI = 0
        · simp only [hc, if_true, if_pos hc] at hrec ⊢
          rw [hrec]
          simp
        · simp only [hc, if_false, if_neg hc] at hrec ⊢
          rw [hrec]
          simp
      · intro m hm
        rcases List.mem_append.mp hm with h | h
        · by_cases hc : count % LSI = 0
          · rw [if_pos hc] at h
            simp at h
            exact ⟨t, le_refl t, ht, h⟩
          · rw [if_neg hc] at h
            simp at h
        · obtain ⟨tm, h1, h2, h3⟩ := hmem m h
          exact ⟨tm, by omega, h2, h3⟩
      · by_cases hc : count % LSI = 0
        · rw [if_pos hc]
          rw [List.singleton_append, List.chain'_cons']
          constructor
          · intro y hy
            have hym : y ∈ extra := by
              rcases extra with _ | ⟨e0, es⟩
              · simp at hy
              · simp at hy
                simp [hy]
            obtain ⟨tm, h1, h2, h3⟩ := hmem y hym
            rw [h3]
            exact hInv.get_mono (by omega) h2
          · exact hch
        · rw [if_neg hc]
          simp only [List.nil_append]
          exact hch
      · intro hc
        rw [if_pos hc]
        rfl

/-- The output accumulation walk: from chain position `t` it adds up the
`pvdiff` fields of all remaining chain members. -/
theorem accumLoop_spec {x : NumericVector} {p : Nat} {links : DoublyLinkedList}
    {c : List Nat} (hInv : Inv x p links c) :
    ∀ (fuel t : Nat) (acc : ℚ), t < c.length → c.length - t < fuel →
      accumLoop x links fuel (cgd c t) acc =
        some (acc + ((c.drop t).map (fun m => (getp links m).pvdiff)).sum) := by
  intro fuel
  induction fuel with
  | zero =>
    intro t acc ht hfuel
    omega
  | succ fuel ih =>
    intro t acc ht hfuel
    have htx : cgd c t < x.size := hInv.cgd_lt_size ht
    have htl : cgd c t < links.size := by rw [hInv.size_ok]; exact htx
    have hdropt : c.drop t = cgd c t :: c.drop (t + 1) := by
      rw [cgd_eq_get c t ht, List.get_eq_getElem]
      exact List.drop_eq_getElem_cons ht
    by_cases hlast : t = c.length - 1
    · have hnext : (getp links (cgd c t)).next = x.size := by
        rw [hlast, hInv.getLast_cgd]
        exact hInv.last_next
      simp only [accumLoop, if_pos htx, get?_eq_getp links _ htl,
        Option.bind_eq_bind, Option.some_bind, hnext]
      rcases Nat.lt_or_ge 0 fuel with hf | hf
      · rcases Nat.exists_eq_add_of_lt hf with ⟨fuel2, hf2⟩
        subst hf2
        simp only [accumLoop, if_neg (by omega : ¬ x.size < x.size)]
        rw [hdropt]
        have hdrop1 : c.drop (t + 1) = [] := by
          apply List.drop_eq_nil_of_le
          omega
        rw [hdrop1]
        simp
      · omega
    · have hedge := hInv.edge (show t + 1 < c.length by omega)
      simp only [accumLoop, if_pos htx, get?_eq_getp links _ htl,
        Option.bind_eq_bind, Option.some_bind, hedge.2.2.1]
      rw [ih (t + 1) (acc + (getp links (cgd c t)).pvdiff) (by omega) (by omega),
        hdropt]
      simp only [List.map_cons, List.sum_cons]
      congr 1
      ring

/-- Stage 3 result: `MergeIntervalsRecursively` terminates, preserves the
invariant, and only removes chain members. -/
theorem MergeIntervalsRecursively_ok {x : NumericVector} {p : Nat}
    {links : DoublyLinkedList} {c : List Nat} (hInv : Inv x p links c) (LSI : Nat) :
    ∃ links2 c2, MergeIntervalsRecursively x links p LSI = some links2 ∧
      Inv x p links2 c2 ∧ List.Sublist c2 c := by
  have hlpos : 0 < c.length := List.length_pos.mpr hInv.ne_nil
  have hlen_le := hInv.length_le
  obtain ⟨l0, hbuild, hmem0, hch0, hhead0⟩ := buildIter_spec hInv LSI (x.size + 1) 0 0 []
    (by omega) (by omega)
  rw [hInv.cgd_zero] at hbuild hhead0
  have hl0mem : ∀ m ∈ l0, m ∈ c := by
    intro m hm
    obtain ⟨tm, _, h2, h3⟩ := hmem0 m hm
    rw [h3]
    exact Inv.cgd_mem h2
  have hlastmem : (x.size - 1 : Nat) ∈ c := by
    rw [← hInv.getLast_cgd]
    exact Inv.cgd_mem (by omega)
  have hl1mem : ∀ m ∈ l0 ++ [x.size - 1], m ∈ c := by
    intro m hm
    rcases List.mem_append.mp hm with h | h
    · exact hl0mem m h
    · simp at h
      rw [h]
      exact hlastmem
  have hch1 : (l0 ++ [x.size - 1]).Chain' (· ≤ ·) := by
    rw [List.chain'_append]
    refine ⟨chain'_imp_mem hch0 (fun a _ b _ hr => le_of_lt hr),
      List.chain'_singleton _, ?_⟩
    intro y hy z hz
    simp at hz
    subst hz
    have hym : y ∈ l0 :=
      List.mem_of_getLast?_eq_some (Option.mem_def.mp hy)
    have := hInv.mem_lt (hl0mem y hym)
    omega
  obtain ⟨bl2, links2, c2, hloop, hInv2, hsub⟩ := mergeLoop_ok (l0 ++ [x.size - 1]).length
    (l0 ++ [x.size - 1]) links c hInv hl1mem hch1 (by omega)
  refine ⟨links2, c2, ?_, hInv2, hsub⟩
  unfold MergeIntervalsRecursively
  rw [hbuild]
  simp only [Option.bind_eq_bind, Option.some_bind, List.nil_append]
  rw [hloop]
  simp only [Option.bind_eq_bind, Option.some_bind]
  rfl

/-! ## Pipeline assembly and the brute-force bound -/

/-- The sum of stored edge weights along a well-formed chain equals the head
weight plus the p-variation path sum of the chain. -/
theorem chainSum_eq_pathSum {x : NumericVector} {p : Nat} {links : DoublyLinkedList} :
    ∀ (a : Nat) (l : List Nat), (a :: l).Chain' (EdgeOK x p links) →
      (((a :: l).map (fun m => (getp links m).pvdiff)).sum =
        (getp links a).pvdiff + pathSum x p (a :: l)) := by
  intro a l
  induction l generalizing a with
  | nil =>
    intro _
    simp [pathSum]
  | cons b l ih =>
    intro hch
    rw [List.chain'_cons] at hch
    have hrec := ih b hch.2
    simp only [List.map_cons, List.sum_cons] at hrec ⊢
    have hl : (l.map (fun m => (getp links m).pvdiff)).sum = pathSum x p (b :: l) := by
      have := hrec
      linarith
    show (getp links a).pvdiff + ((getp links b).pvdiff +
      (l.map (fun m => (getp links m).pvdiff)).sum) = (getp links a).pvdiff +
        pathSum x p (a :: b :: l)
    have hps : pathSum x p (a :: b :: l) =
        pvar_diff (x.getD b 0 - x.getD a 0) p + pathSum x p (b :: l) := rfl
    rw [hps, hl, hch.1.2.2.2.2]

/-- The full pipeline on a sequence of length at least 3: every stage
succeeds, maintains the invariant, only removes points, and the final
accumulated value is the edge-weight sum over the final chain. -/
theorem pvar_pipeline {x : NumericVector} {p : Nat} (h3 : 3 ≤ x.size) :
    ∃ links1 c1 links2 c2 links3 c3,
      DetectLocalExtrema x (Array.mkArray x.size ⟨0, 0, 0⟩) p = some links1 ∧
      Inv x p links1 c1 ∧
      CheckShortIntervals x links1 p = some links2 ∧ Inv x p links2 c2 ∧
      List.Sublist c2 c1 ∧
      MergeIntervalsRecursively x links2 p 4 = some links3 ∧ Inv x p links3 c3 ∧
      List.Sublist c3 c2 ∧
      pvarO x p = some ((c3.map (fun m => (getp links3 m).pvdiff)).sum) := by
  obtain ⟨links1, c1, hdle, hInv1⟩ := DetectLocalExtrema_ok x p (by omega)
  obtain ⟨links2, c2, hcsi, hInv2, hsub2⟩ := CheckShortIntervals_ok hInv1
  obtain ⟨links3, c3, hmrg, hInv3, hsub3⟩ := MergeIntervalsRecursively_ok hInv2 4
  have hlpos3 : 0 < c3.length := List.length_pos.mpr hInv3.ne_nil
  have haccum := accumLoop_spec hInv3 (x.size + 1) 0 0 (by omega)
    (by have := hInv3.length_le; omega)
  rw [hInv3.cgd_zero, List.drop_zero, zero_add] at haccum
  refine ⟨links1, c1, links2, c2, links3, c3, hdle, hInv1, hcsi, hInv2, hsub2,
    hmrg, hInv3, hsub3, ?_⟩
  unfold pvarO
  rw [if_neg (by omega)]
  simp only [hdle, hcsi, hmrg, Option.bind_eq_bind, Option.some_bind]
  exact haccum

/-- A strictly increasing list of naturals below `n` is a sublist of
`range' a (n - a)` whenever all entries are at least `a`. -/
theorem sorted_sublist_range' :
    ∀ (c : List Nat), c.Pairwise (· < ·) → ∀ (a n : Nat),
      (∀ m ∈ c, a ≤ m ∧ m < n) → List.Sublist c (List.range' a (n - a)) := by
  intro c
  induction c with
  | nil =>
    intro _ a n _
    exact List.nil_sublist _
  | cons m c ih =>
    intro hpw a n hmem
    have hm := hmem m (by simp)
    have hpw2 := List.pairwise_cons.mp hpw
    have htail : ∀ q ∈ c, m + 1 ≤ q ∧ q < n := by
      intro q hq
      exact ⟨hpw2.1 q hq, (hmem q (by simp [hq])).2⟩
    have hrec := ih hpw2.2 (m + 1) n htail
    have hsplit : List.range' a (m - a) ++ List.range' m (n - m) =
        List.range' a (n - a) := by
      have happ := List.range'_append a (m - a) (n - m) 1
      rw [show a + 1 * (m - a) = m by omega, show n - m + (m - a) = n - a by omega]
        at happ
      exact happ
    have hcons : List.range' m (n - m) = m :: List.range' (m + 1) (n - (m + 1)) := by
      have h1 : n - m = (n - (m + 1)) + 1 := by omega
      rw [h1, List.range'_succ]
    rw [← hsplit, hcons]
    exact (List.cons_sublist_cons.mpr hrec).trans (List.sublist_append_right _ _)

theorem sorted_sublist_range (c : List Nat) (n : Nat) (hpw : c.Pairwise (· < ·))
    (hmem : ∀ m ∈ c, m < n) : List.Sublist c (List.range n) := by
  have := sorted_sublist_range' c hpw 0 n (fun m hm => ⟨Nat.zero_le m, hmem m hm⟩)
  rwa [Nat.sub_zero, ← List.range_eq_range'] at this

theorem le_foldl_max (l : List ℚ) : ∀ (b : ℚ), b ≤ l.foldl max b := by
  induction l with
  | nil => intro b; exact le_refl b
  | cons a l ih =>
    intro b
    calc b ≤ max b a := le_max_left b a
    _ ≤ l.foldl max (max b a) := ih (max b a)

theorem mem_le_foldl_max (l : List ℚ) : ∀ (a : ℚ) (b : ℚ), a ∈ l → a ≤ l.foldl max b := by
  induction l with
  | nil =>
    intro a b h
    simp at h
  | cons q l ih =>
    intro a b h
    rcases List.mem_cons.mp h with h | h
    · subst h
      calc a ≤ max b a := le_max_right b a
      _ ≤ l.foldl max (max b a) := le_foldl_max l (max b a)
    · exact ih a (max b q) h

theorem bruteMax_nonneg (x : NumericVector) (p : Nat) : 0 ≤ bruteMax x p :=
  le_foldl_max _ 0

/-- Any strictly increasing index path below `n` contributes at most the
brute-force maximum. -/
theorem pathSum_le_bruteMax {x : NumericVector} {p : Nat} {c : List Nat}
    (hpw : c.Pairwise (· < ·)) (hmem : ∀ m ∈ c, m < x.size) :
    pathSum x p c ≤ bruteMax x p := by
  have hsub : List.Sublist c (List.range x.size) :=
    sorted_sublist_range c x.size hpw hmem
  have hin : pathSum x p c ∈ ((List.range x.size).sublists.map (pathSum x p)) :=
    List.mem_map.mpr ⟨c, List.mem_sublists.mpr hsub, rfl⟩
  exact mem_le_foldl_max _ _ 0 hin

/-! ## Claim theorems C7, C8, C3, C9 -/

/-- **C7**: `pvar` terminates on every finite input sequence and exponent: the
short-interval scan reaches the sentinel, the merge boundary loop collapses,
the final accumulation reaches the sentinel, and the whole computation is a
total function of `(sequence, p)` — formally, the fueled/checked semantics
`pvarO` always returns a value within its fuel bounds. -/
theorem pvar_terminates (x : NumericVector) (p : Nat) : ∃ r : ℚ, pvarO x p = some r := by
  by_cases h3 : 3 ≤ x.size
  · obtain ⟨_, _, _, _, links3, c3, _, _, _, _, _, _, _, _, hval⟩ := pvar_pipeline h3
    exact ⟨_, hval⟩
  · unfold pvarO
    rw [if_pos (by omega)]
    by_cases h1 : x.size ≤ 1
    · rw [if_pos h1]
      exact ⟨0, rfl⟩
    · rw [if_neg h1]
      have g0 : x.get? 0 = some (x.getD 0 0) := xget_eq x 0 (by omega)
      have g1 : x.get? 1 = some (x.getD 1 0) := xget_eq x 1 (by omega)
      rw [g0, g1]
      exact ⟨_, rfl⟩

/-- All stored link fields lie in `[0, n]` (`n` = the sentinel). -/
def linkBounds (x : NumericVector) (links : DoublyLinkedList) : Prop :=
  links.size = x.size ∧ ∀ i, i < links.size →
    (getp links i).prev ≤ x.size ∧ (getp links i).next ≤ x.size

/-- **C8**: throughout the computation every stored `prev`/`next` value lies in
`[0, n]`, and no access to the links structure is ever out of bounds: every
stage of the checked semantics (in which any indexing outside `[0, n-1]`
yields `none`) returns a value, and the intermediate structures satisfy the
stored-field bound. -/
theorem links_bounds_safe (x : NumericVector) (p : Nat) (h3 : 3 ≤ x.size) :
    ∃ links1 links2 links3,
      DetectLocalExtrema x (Array.mkArray x.size ⟨0, 0, 0⟩) p = some links1 ∧
      linkBounds x links1 ∧
      CheckShortIntervals x links1 p = some links2 ∧ linkBounds x links2 ∧
      MergeIntervalsRecursively x links2 p 4 = some links3 ∧ linkBounds x links3 ∧
      (∃ r : ℚ, pvarO x p = some r) := by
  obtain ⟨links1, c1, links2, c2, links3, c3, hdle, hInv1, hcsi, hInv2, _,
    hmrg, hInv3, _, hval⟩ := pvar_pipeline h3
  exact ⟨links1, links2, links3, hdle, ⟨hInv1.size_ok, hInv1.bound_ok⟩,
    hcsi, ⟨hInv2.size_ok, hInv2.bound_ok⟩, hmrg, ⟨hInv3.size_ok, hInv3.bound_ok⟩,
    ⟨_, hval⟩⟩

/-- Witness for C8 on the concrete input `[0, 1, 0]`, `p = 1`. -/
theorem links_bounds_safe_witness :
    ∃ links1 links2 links3,
      DetectLocalExtrema (#[0, 1, 0] : NumericVector)
          (Array.mkArray (#[0, 1, 0] : NumericVector).size ⟨0, 0, 0⟩) 1 = some links1 ∧
      linkBounds #[0, 1, 0] links1 ∧
      CheckShortIntervals #[0, 1, 0] links1 1 = some links2 ∧
      linkBounds #[0, 1, 0] links2 ∧
      MergeIntervalsRecursively #[0, 1, 0] links2 1 4 = some links3 ∧
      linkBounds #[0, 1, 0] links3 ∧
      (∃ r : ℚ, pvarO #[0, 1, 0] 1 = some r) :=
  links_bounds_safe #[0, 1, 0] 1 (by decide)

/-- **C3**: after extrema detection and at the end of each later stage the
links structure forms a single chain from `0` to `n-1` through strictly
increasing indices ending at the sentinel `n` (the content of `Inv`); the sum
of `pvdiff` over the non-initial chain nodes — which equals the whole stored
sum since the head weight is `0` — is a lower bound on the exhaustively
enumerated p-variation; and removal is monotone and irreversible: each later
chain is a sublist of the earlier one, so an excised index never returns. -/
theorem chain_invariant_stages (x : NumericVector) (p : Nat) (h3 : 3 ≤ x.size) :
    ∃ links1 c1 links2 c2 links3 c3,
      DetectLocalExtrema x (Array.mkArray x.size ⟨0, 0, 0⟩) p = some links1 ∧
      Inv x p links1 c1 ∧
      CheckShortIntervals x links1 p = some links2 ∧ Inv x p links2 c2 ∧
      List.Sublist c2 c1 ∧
      MergeIntervalsRecursively x links2 p 4 = some links3 ∧ Inv x p links3 c3 ∧
      List.Sublist c3 c2 ∧
      pathSum x p c1 ≤ bruteMax x p ∧ pathSum x p c2 ≤ bruteMax x p ∧
      pathSum x p c3 ≤ bruteMax x p ∧
      (∀ (links : DoublyLinkedList) (c : List Nat), Inv x p links c →
        (c.map (fun m => (getp links m).pvdiff)).sum = pathSum x p c) := by
  obtain ⟨links1, c1, links2, c2, links3, c3, hdle, hInv1, hcsi, hInv2, hsub2,
    hmrg, hInv3, hsub3, _⟩ := pvar_pipeline h3
  have hsum : ∀ (links : DoublyLinkedList) (c : List Nat), Inv x p links c →
      (c.map (fun m => (getp links m).pvdiff)).sum = pathSum x p c := by
    intro links c hInv
    have hd := hInv.head_c
    rcases c with _ | ⟨a, l⟩
    · simp at hd
    · simp at hd
      subst hd
      rw [chainSum_eq_pathSum 0 l hInv.chain, hInv.head_pv, zero_add]
  refine ⟨links1, c1, links2, c2, links3, c3, hdle, hInv1, hcsi, hInv2, hsub2,
    hmrg, hInv3, hsub3, ?_, ?_, ?_, hsum⟩
  · exact pathSum_le_bruteMax hInv1.sorted (fun m hm => hInv1.mem_lt hm)
  · exact pathSum_le_bruteMax hInv2.sorted (fun m hm => hInv2.mem_lt hm)
  · exact pathSum_le_bruteMax hInv3.sorted (fun m hm => hInv3.mem_lt hm)

/-- Witness for C3 on the concrete input `[0, 1, 0]`, `p = 1`. -/
theorem chain_invariant_stages_witness :
    ∃ links1 c1 links2 c2 links3 c3,
      DetectLocalExtrema (#[0, 1, 0] : NumericVector)
          (Array.mkArray (#[0, 1, 0] : NumericVector).size ⟨0, 0, 0⟩) 1 = some links1 ∧
      Inv #[0, 1, 0] 1 links1 c1 ∧
      CheckShortIntervals #[0, 1, 0] links1 1 = some links2 ∧
      Inv #[0, 1, 0] 1 links2 c2 ∧ List.Sublist c2 c1 ∧
      MergeIntervalsRecursively #[0, 1, 0] links2 1 4 = some links3 ∧
      Inv #[0, 1, 0] 1 links3 c3 ∧ List.Sublist c3 c2 ∧
      pathSum #[0, 1, 0] 1 c1 ≤ bruteMax #[0, 1, 0] 1 ∧
      pathSum #[0, 1, 0] 1 c2 ≤ bruteMax #[0, 1, 0] 1 ∧
      pathSum #[0, 1, 0] 1 c3 ≤ bruteMax #[0, 1, 0] 1 ∧
      (∀ (links : DoublyLinkedList) (c : List Nat), Inv #[0, 1, 0] 1 links c →
        (c.map (fun m => (getp links m).pvdiff)).sum = pathSum #[0, 1, 0] 1 c) :=
  chain_invariant_stages #[0, 1, 0] 1 (by decide)

/-- **C9**: the head record keeps `prev = 0` and `pvdiff = 0` through all
three stages, and the accumulator's unconditional inclusion of
`links[0].pvdiff` in the final sum contributes exactly `0`: the result is the
head weight (which is `0`) plus the path sum over the rest of the chain. -/
theorem head_node_zero (x : NumericVector) (p : Nat) (h3 : 3 ≤ x.size) :
    ∃ links1 links2 links3 c3,
      DetectLocalExtrema x (Array.mkArray x.size ⟨0, 0, 0⟩) p = some links1 ∧
      (getp links1 0).prev = 0 ∧ (getp links1 0).pvdiff = 0 ∧
      CheckShortIntervals x links1 p = some links2 ∧
      (getp links2 0).prev = 0 ∧ (getp links2 0).pvdiff = 0 ∧
      MergeIntervalsRecursively x links2 p 4 = some links3 ∧
      (getp links3 0).prev = 0 ∧ (getp links3 0).pvdiff = 0 ∧
      pvarO x p = some ((getp links3 0).pvdiff + pathSum x p c3) ∧
      (getp links3 0).pvdiff + pathSum x p c3 = pathSum x p c3 := by
  obtain ⟨links1, c1, links2, c2, links3, c3, hdle, hInv1, hcsi, hInv2, _,
    hmrg, hInv3, _, hval⟩ := @pvar_pipeline x p h3
  have hsum3 : (c3.map (fun m => (getp links3 m).pvdiff)).sum =
      (getp links3 0).pvdiff + pathSum x p c3 := by
    have hd := hInv3.head_c
    rcases c3 with _ | ⟨a, l⟩
    · simp at hd
    · simp at hd
      subst hd
      exact chainSum_eq_pathSum 0 l hInv3.chain
  refine ⟨links1, links2, links3, c3, hdle, hInv1.head_prev, hInv1.head_pv,
    hcsi, hInv2.head_prev, hInv2.head_pv, hmrg, hInv3.head_prev, hInv3.head_pv,
    ?_, ?_⟩
  · rw [hval, hsum3]
  · rw [hInv3.head_pv, zero_add]

/-- Witness for C9 on the concrete input `[0, 1, 0]`, `p = 1`. -/
theorem head_node_zero_witness :
    ∃ links1 links2 links3 c3,
      DetectLocalExtrema (#[0, 1, 0] : NumericVector)
          (Array.mkArray (#[0, 1, 0] : NumericVector).size ⟨0, 0, 0⟩) 1 = some links1 ∧
      (getp links1 0).prev = 0 ∧ (getp links1 0).pvdiff = 0 ∧
      CheckShortIntervals #[0, 1, 0] links1 1 = some links2 ∧
      (getp links2 0).prev = 0 ∧ (getp links2 0).pvdiff = 0 ∧
      MergeIntervalsRecursively #[0, 1, 0] links2 1 4 = some links3 ∧
      (getp links3 0).prev = 0 ∧ (getp links3 0).pvdiff = 0 ∧
      pvarO #[0, 1, 0] 1 = some ((getp links3 0).pvdiff + pathSum #[0, 1, 0] 1 c3) ∧
      (getp links3 0).pvdiff + pathSum #[0, 1, 0] 1 c3 = pathSum #[0, 1, 0] 1 c3 :=
  head_node_zero #[0, 1, 0] 1 (by decide)

/-! ## Claim C4: one step of the short-interval window -/

/-- **C4**: one iteration of the `CheckShortIntervals` main loop on a window
`(begin, end)` spanning three chain edges with interior weight sum `csum`:
if the direct jump does not exceed `csum`, the links are unchanged and the
window advances by one edge; otherwise the two middle points are excised,
`begin` and `end` become directly linked with `edgeWeight` equal to the direct
jump, no other record changes, and the loop resumes on a re-validated window
of three edges of the new chain obtained by backtracking up to two edges on
the begin side and, when blocked at the head, extending up to two edges on
the end side. -/
theorem CSIloop_window_step (x : NumericVector) (p : Nat) (fuel : Nat)
    (links : DoublyLinkedList) (c : List Nat) (k : Nat) (csum : ℚ)
    (hInv : Inv x p links c) (hk : k + 3 < c.length)
    (hcsum : csum = winSum links c k (k + 3)) :
    (pvar_diff (x.getD (cgd c k) 0 - x.getD (cgd c (k + 3)) 0) p ≤ csum →
      (k + 3 = c.length - 1 →
        CSIloop x p (fuel + 1) links csum (cgd c k) (cgd c (k + 3)) = some links) ∧
      (k + 3 < c.length - 1 →
        CSIloop x p (fuel + 1) links csum (cgd c k) (cgd c (k + 3)) =
          CSIloop x p fuel links (winSum links c (k + 1) (k + 4))
            (cgd c (k + 1)) (cgd c (k + 4)))) ∧
    (csum < pvar_diff (x.getD (cgd c k) 0 - x.getD (cgd c (k + 3)) 0) p →
      ∃ l2, Inv x p l2 (c.take (k + 1) ++ c.drop (k + 3)) ∧
        (getp l2 (cgd c k)).next = cgd c (k + 3) ∧
        (getp l2 (cgd c (k + 3))).prev = cgd c k ∧
        (getp l2 (cgd c (k + 3))).pvdiff =
          pvar_diff (x.getD (cgd c k) 0 - x.getD (cgd c (k + 3)) 0) p ∧
        (∀ j, j ≠ cgd c k → j ≠ cgd c (k + 3) → getp l2 j = getp links j) ∧
        (CSIloop x p (fuel + 1) links csum (cgd c k) (cgd c (k + 3)) = some l2 ∨
          ∃ i2 j2, j2 = i2 + 3 ∧ i2 ≤ k ∧ k + 1 ≤ j2 ∧ j2 ≤ k + 3 ∧
            j2 < (c.take (k + 1) ++ c.drop (k + 3)).length ∧
            CSIloop x p (fuel + 1) links csum (cgd c k) (cgd c (k + 3)) =
              CSIloop x p fuel l2
                (winSum l2 (c.take (k + 1) ++ c.drop (k + 3)) i2 j2)
                (cgd (c.take (k + 1) ++ c.drop (k + 3)) i2)
                (cgd (c.take (k + 1) ++ c.drop (k + 3)) j2))) := by
  have hblt : cgd c k < x.size := hInv.cgd_lt_size (by omega)
  have helt : cgd c (k + 3) < x.size := hInv.cgd_lt_size (by omega)
  have hxb := xget_eq x (cgd c k) hblt
  have hxe := xget_eq x (cgd c (k + 3)) helt
  constructor
  · -- keep branch
    intro hbranch
    constructor
    · intro hend
      have hadv := (advEnd_spec hInv (k + 3) (by omega) csum).1 hend
      simp only [CSIloop, hxb, hxe, Option.bind_eq_bind, Option.some_bind,
        if_pos hbranch, hadv]
      rfl
    · intro hmid
      have hadv := (advEnd_spec hInv (k + 3) (by omega) csum).2 hmid
      have hedgek := hInv.edge (show k + 1 < c.length by omega)
      have hblt2 : cgd c k < links.size := by rw [hInv.size_ok]; exact hblt
      have hmlt2 : cgd c (k + 1) < links.size := by
        rw [hInv.size_ok]; exact hInv.cgd_lt_size (by omega)
      have hcsum2 : csum + (getp links (cgd c (k + 3 + 1))).pvdiff -
          (getp links (cgd c (k + 1))).pvdiff = winSum links c (k + 1) (k + 4) := by
        have e1 : winSum links c k (k + 4) =
            winSum links c k (k + 3) + (getp links (cgd c (k + 4))).pvdiff := by
          have := winSum_top links c (show k ≤ k + 3 by omega)
          simpa using this
        have e2 : winSum links c k (k + 4) =
            (getp links (cgd c (k + 1))).pvdiff + winSum links c (k + 1) (k + 4) := by
          have := winSum_bot links c (show 0 < k + 1 by omega) (show k + 1 ≤ k + 4 by omega)
          simpa using this
        rw [hcsum, show k + 3 + 1 = k + 4 from rfl]
        linarith
      simp only [CSIloop, hxb, hxe, Option.bind_eq_bind, Option.some_bind,
        if_pos hbranch, hadv, get?_eq_getp links (cgd c k) hblt2, hedgek.2.2.1,
        get?_eq_getp links (cgd c (k + 1)) hmlt2]
      rw [hcsum2]
  · -- erase branch
    intro hbranch
    have hbranch2 : ¬ pvar_diff (x.getD (cgd c k) 0 - x.getD (cgd c (k + 3)) 0) p ≤
        csum := by push_neg; exact hbranch
    set fj := pvar_diff (x.getD (cgd c k) 0 - x.getD (cgd c (k + 3)) 0) p with hfj
    have hblt2 : cgd c k < links.size := by rw [hInv.size_ok]; exact hblt
    have hl1 := modifyL_eq links (cgd c k)
      (fun d => { d with next := cgd c (k + 3) }) hblt2
    set l1 := links.set ⟨cgd c k, hblt2⟩
      ({ getp links (cgd c k) with next := cgd c (k + 3) }) with hl1def
    have helt2 : cgd c (k + 3) < l1.size := by
      rw [size_modifyL hl1, hInv.size_ok]; exact helt
    have hl2 := modifyL_eq l1 (cgd c (k + 3))
      (fun d => { d with prev := cgd c k, pvdiff := fj }) helt2
    set l2 := l1.set ⟨cgd c (k + 3), helt2⟩
      ({ getp l1 (cgd c (k + 3)) with prev := cgd c k, pvdiff := fj }) with hl2def
    have hbe : cgd c k ≠ cgd c (k + 3) :=
      Nat.ne_of_lt (hInv.get_mono (by omega) (by omega))
    have hread := excise_getp hbe hl1 hl2
    have hInv2 : Inv x p l2 (c.take (k + 1) ++ c.drop (k + 3)) :=
      excise_ok hInv (show k < k + 3 by omega) hk
        (by rw [hfj, pvar_diff_comm]) hl1 hl2
    have hlen2 : (c.take (k + 1) ++ c.drop (k + 3)).length =
        k + 1 + (c.length - (k + 3)) := excise_length (by omega) hk
    have he' : cgd (c.take (k + 1) ++ c.drop (k + 3)) (k + 1) = cgd c (k + 3) := by
      rw [excise_cgd_high (show k < k + 3 by omega) hk (le_refl (k + 1)) (by omega)]
      congr 1
      omega
    have hb' : cgd (c.take (k + 1) ++ c.drop (k + 3)) k = cgd c k :=
      excise_cgd_low (show k < k + 3 by omega) hk (by omega)
    -- one forced backward step of the backtracking loop
    have hstep1 : backtrack x l2 3 0 (cgd c (k + 3)) (cgd c (k + 3)) =
        backtrack x l2 2 (0 + (getp l2 (cgd c (k + 3))).pvdiff)
          (cgd c k) (cgd c (k + 3)) := by
      have hepos : 0 < cgd c (k + 3) := hInv.cgd_pos (by omega) (by omega)
      have helt3 : cgd c (k + 3) < l2.size := by
        rw [size_modifyL hl2]; exact helt2
      have hprev : (getp l2 (cgd c (k + 3))).prev = cgd c k := by
        have h := (hInv2.edge (show k + 1 < (c.take (k + 1) ++ c.drop (k + 3)).length by
          rw [hlen2]; omega)).2.2.2.1
        rw [he', hb'] at h
        exact h
      show (if 0 < cgd c (k + 3) then _ else _) = _
      rw [if_pos hepos, get?_eq_getp l2 _ helt3]
      simp only [Option.bind_eq_bind, Option.some_bind]
      rw [hprev]
    have hwin1 : 0 + (getp l2 (cgd c (k + 3))).pvdiff =
        winSum l2 (c.take (k + 1) ++ c.drop (k + 3)) k (k + 1) := by
      have hw := winSum_top l2 (c.take (k + 1) ++ c.drop (k + 3)) (le_refl k)
      rw [winSum_self] at hw
      rw [hw, he']
    have hbt0 := backtrack_spec hInv2 2 k (k + 1) (0 + (getp l2 (cgd c (k + 3))).pvdiff)
      (by omega) (by rw [hlen2]; omega) hwin1
    rw [he', hb'] at hbt0
    refine ⟨l2, hInv2, ?_, ?_, ?_, ?_, ?_⟩
    · rw [hread (cgd c k), if_neg hbe, if_pos rfl]
    · rw [hread (cgd c (k + 3)), if_pos rfl]
    · rw [hread (cgd c (k + 3)), if_pos rfl]
    · intro j hjb hje
      rw [hread j, if_neg hje, if_neg hjb]
    · rcases hbt0 with ⟨u, hbt⟩ | ⟨i2, j2, hbt, h1, h2, h3, h4, h5⟩
      · left
        simp only [CSIloop, hxb, hxe, Option.bind_eq_bind, Option.some_bind,
          if_neg hbranch2, hl1, hl2, hstep1, hbt]
        rfl
      · right
        have hj2 : j2 = i2 + 3 := by omega
        subst hj2
        refine ⟨i2, i2 + 3, rfl, by omega, by omega, by omega, h2, ?_⟩
        simp only [CSIloop, hxb, hxe, Option.bind_eq_bind, Option.some_bind,
          if_neg hbranch2, hl1, hl2, hstep1, hbt]

instance EdgeOK.dec (x : NumericVector) (p : Nat) (links : DoublyLinkedList)
    (a b : Nat) : Decidable (EdgeOK x p links a b) := by
  unfold EdgeOK
  infer_instance

/-- A concrete well-formed links structure over `#[0, 1, 0, 1]` (chain
`[0, 1, 2, 3]`), used to witness the window-step theorem. -/
def linksW : DoublyLinkedList := #[⟨0, 1, 0⟩, ⟨0, 2, 1⟩, ⟨1, 3, 1⟩, ⟨2, 4, 1⟩]

/-- Witness for C4 on the concrete window `(0, 3)` of the chain `[0, 1, 2, 3]`
over the sequence `[0, 1, 0, 1]` with `p = 1` and `csum = 3`. -/
theorem CSIloop_window_step_witness :
    (pvar_diff ((#[0, 1, 0, 1] : NumericVector).getD (cgd [0, 1, 2, 3] 0) 0 -
        (#[0, 1, 0, 1] : NumericVector).getD (cgd [0, 1, 2, 3] (0 + 3)) 0) 1 ≤
        winSum linksW [0, 1, 2, 3] 0 (0 + 3) →
      (0 + 3 = ([0, 1, 2, 3] : List Nat).length - 1 →
        CSIloop #[0, 1, 0, 1] 1 (5 + 1) linksW (winSum linksW [0, 1, 2, 3] 0 (0 + 3))
          (cgd [0, 1, 2, 3] 0) (cgd [0, 1, 2, 3] (0 + 3)) = some linksW) ∧
      (0 + 3 < ([0, 1, 2, 3] : List Nat).length - 1 →
        CSIloop #[0, 1, 0, 1] 1 (5 + 1) linksW (winSum linksW [0, 1, 2, 3] 0 (0 + 3))
          (cgd [0, 1, 2, 3] 0) (cgd [0, 1, 2, 3] (0 + 3)) =
          CSIloop #[0, 1, 0, 1] 1 5 linksW (winSum linksW [0, 1, 2, 3] (0 + 1) (0 + 4))
            (cgd [0, 1, 2, 3] (0 + 1)) (cgd [0, 1, 2, 3] (0 + 4)))) ∧
    (winSum linksW [0, 1, 2, 3] 0 (0 + 3) <
        pvar_diff ((#[0, 1, 0, 1] : NumericVector).getD (cgd [0, 1, 2, 3] 0) 0 -
        (#[0, 1, 0, 1] : NumericVector).getD (cgd [0, 1, 2, 3] (0 + 3)) 0) 1 →
      ∃ l2, Inv #[0, 1, 0, 1] 1 l2
          (([0, 1, 2, 3] : List Nat).take (0 + 1) ++ ([0, 1, 2, 3] : List Nat).drop (0 + 3)) ∧
        (getp l2 (cgd [0, 1, 2, 3] 0)).next = cgd [0, 1, 2, 3] (0 + 3) ∧
        (getp l2 (cgd [0, 1, 2, 3] (0 + 3))).prev = cgd [0, 1, 2, 3] 0 ∧
        (getp l2 (cgd [0, 1, 2, 3] (0 + 3))).pvdiff =
          pvar_diff ((#[0, 1, 0, 1] : NumericVector).getD (cgd [0, 1, 2, 3] 0) 0 -
            (#[0, 1, 0, 1] : NumericVector).getD (cgd [0, 1, 2, 3] (0 + 3)) 0) 1 ∧
        (∀ j, j ≠ cgd [0, 1, 2, 3] 0 → j ≠ cgd [0, 1, 2, 3] (0 + 3) →
          getp l2 j = getp linksW j) ∧
        (CSIloop #[0, 1, 0, 1] 1 (5 + 1) linksW (winSum linksW [0, 1, 2, 3] 0 (0 + 3))
            (cgd [0, 1, 2, 3] 0) (cgd [0, 1, 2, 3] (0 + 3)) = some l2 ∨
          ∃ i2 j2, j2 = i2 + 3 ∧ i2 ≤ 0 ∧ 0 + 1 ≤ j2 ∧ j2 ≤ 0 + 3 ∧
            j2 < (([0, 1, 2, 3] : List Nat).take (0 + 1) ++
              ([0, 1, 2, 3] : List Nat).drop (0 + 3)).length ∧
            CSIloop #[0, 1, 0, 1] 1 (5 + 1) linksW (winSum linksW [0, 1, 2, 3] 0 (0 + 3))
                (cgd [0, 1, 2, 3] 0) (cgd [0, 1, 2, 3] (0 + 3)) =
              CSIloop #[0, 1, 0, 1] 1 5 l2
                (winSum l2 (([0, 1, 2, 3] : List Nat).take (0 + 1) ++
                  ([0, 1, 2, 3] : List Nat).drop (0 + 3)) i2 j2)
                (cgd (([0, 1, 2, 3] : List Nat).take (0 + 1) ++
                  ([0, 1, 2, 3] : List Nat).drop (0 + 3)) i2)
                (cgd (([0, 1, 2, 3] : List Nat).take (0 + 1) ++
                  ([0, 1, 2, 3] : List Nat).drop (0 + 3)) j2))) :=
  CSIloop_window_step #[0, 1, 0, 1] 1 5 linksW [0, 1, 2, 3] 0
    (winSum linksW [0, 1, 2, 3] 0 (0 + 3))
    (by
      refine ⟨by decide, by decide, by decide, by decide, ?_, rfl, rfl, rfl, by decide⟩
      have hx0 : (#[0, 1, 0, 1] : NumericVector).getD 0 0 = 0 := rfl
      have hx1 : (#[0, 1, 0, 1] : NumericVector).getD 1 0 = 1 := rfl
      have hx2 : (#[0, 1, 0, 1] : NumericVector).getD 2 0 = 0 := rfl
      have hx3 : (#[0, 1, 0, 1] : NumericVector).getD 3 0 = 1 := rfl
      have e1 : (getp linksW 1).pvdiff = 1 := rfl
      have e2 : (getp linksW 2).pvdiff = 1 := rfl
      have e3 : (getp linksW 3).pvdiff = 1 := rfl
      refine List.chain'_cons.mpr ⟨⟨by decide, by decide, rfl, rfl, ?_⟩,
        List.chain'_cons.mpr ⟨⟨by decide, by decide, rfl, rfl, ?_⟩,
        List.chain'_cons.mpr ⟨⟨by decide, by decide, rfl, rfl, ?_⟩,
          List.chain'_singleton 3⟩⟩⟩
      · rw [e1, hx0, hx1]; norm_num [pvar_diff]
      · rw [e2, hx1, hx2]; norm_num [pvar_diff]
      · rw [e3, hx2, hx3]; norm_num [pvar_diff])
    (by decide) rfl

/-! ## Claim C5: monotone sequences reduce to a single edge -/

/-- On a rising (or flat) step with an upward or neutral direction, the scan
records no new extremum and keeps an upward or neutral direction. -/
theorem DLEstep_up (x : NumericVector) (p : Nat) (links : DoublyLinkedList) (d : Int)
    (l0 i : Nat) (hi : i + 1 < x.size) (hx : x.getD i 0 ≤ x.getD (i + 1) 0)
    (hd : d = 0 ∨ d = 1) :
    ∃ d2 : Int, DLEstep x p ⟨l0, d, links⟩ i = some ⟨l0, d2, links⟩ ∧ (d2 = 0 ∨ d2 = 1) := by
  have hdec : ∃ d2 : Int, DLEdecide x d (x.getD i 0) i = some (false, d2) ∧
      (d2 = 0 ∨ d2 = 1) := by
    unfold DLEdecide
    rw [if_pos (show i + 1 ≠ x.size by omega), xget_eq x (i + 1) (by omega)]
    simp only [Option.bind_eq_bind, Option.some_bind]
    by_cases hlt : x.getD i 0 < x.getD (i + 1) 0
    · rw [if_pos hlt]
      have hbeq : (d == (-1 : Int)) = false := by
        rcases hd with h | h <;> simp [h]
      rw [hbeq]
      exact ⟨1, rfl, Or.inr rfl⟩
    · rw [if_neg hlt, if_neg (not_lt.mpr hx)]
      exact ⟨d, rfl, hd⟩
  obtain ⟨d2, hdec, hd2⟩ := hdec
  refine ⟨d2, ?_, hd2⟩
  unfold DLEstep
  rw [xget_eq x i (by omega)]
  simp only [Option.bind_eq_bind, Option.some_bind]
  rw [hdec]
  simp only [Option.bind_eq_bind, Option.some_bind]
  simp

/-- On a falling (or flat) step with a downward or neutral direction, the scan
records no new extremum and keeps a downward or neutral direction. -/
theorem DLEstep_down (x : NumericVector) (p : Nat) (links : DoublyLinkedList) (d : Int)
    (l0 i : Nat) (hi : i + 1 < x.size) (hx : x.getD (i + 1) 0 ≤ x.getD i 0)
    (hd : d = 0 ∨ d = -1) :
    ∃ d2 : Int, DLEstep x p ⟨l0, d, links⟩ i = some ⟨l0, d2, links⟩ ∧
      (d2 = 0 ∨ d2 = -1) := by
  have hdec : ∃ d2 : Int, DLEdecide x d (x.getD i 0) i = some (false, d2) ∧
      (d2 = 0 ∨ d2 = -1) := by
    unfold DLEdecide
    rw [if_pos (show i + 1 ≠ x.size by omega), xget_eq x (i + 1) (by omega)]
    simp only [Option.bind_eq_bind, Option.some_bind]
    rw [if_neg (not_lt.mpr hx)]
    by_cases hlt : x.getD (i + 1) 0 < x.getD i 0
    · rw [if_pos hlt]
      have hbeq : (d == (1 : Int)) = false := by
        rcases hd with h | h <;> simp [h]
      rw [hbeq]
      exact ⟨-1, rfl, Or.inr rfl⟩
    · rw [if_neg hlt]
      exact ⟨d, rfl, hd⟩
  obtain ⟨d2, hdec, hd2⟩ := hdec
  refine ⟨d2, ?_, hd2⟩
  unfold DLEstep
  rw [xget_eq x i (by omega)]
  simp only [Option.bind_eq_bind, Option.some_bind]
  rw [hdec]
  simp only [Option.bind_eq_bind, Option.some_bind]
  simp

/-- On a non-decreasing sequence, the scan over the first `m` indices leaves
the links untouched and the last extremum at `0`. -/
theorem DLE_fold_up (x : NumericVector) (p : Nat) (links : DoublyLinkedList)
    (hup : ∀ i, i + 1 < x.size → x.getD i 0 ≤ x.getD (i + 1) 0) :
    ∀ m, m + 1 ≤ x.size → ∃ d : Int,
      (List.range m).foldlM (DLEstep x p) (⟨0, 0, links⟩ : DLEState) =
        some ⟨0, d, links⟩ ∧ (d = 0 ∨ d = 1) := by
  intro m
  induction m with
  | zero =>
    intro _
    exact ⟨0, rfl, Or.inl rfl⟩
  | succ m ih =>
    intro hm
    obtain ⟨d, hfold, hd⟩ := ih (by omega)
    obtain ⟨d2, hstep, hd2⟩ := DLEstep_up x p links d 0 m (by omega)
      (hup m (by omega)) hd
    refine ⟨d2, ?_, hd2⟩
    rw [List.range_succ, List.foldlM_append, hfold]
    simp only [Option.bind_eq_bind, Option.some_bind, List.foldlM_cons, List.foldlM_nil,
      hstep]
    rfl

/-- On a non-increasing sequence, the scan over the first `m` indices leaves
the links untouched and the last extremum at `0`. -/
theorem DLE_fold_down (x : NumericVector) (p : Nat) (links : DoublyLinkedList)
    (hdown : ∀ i, i + 1 < x.size → x.getD (i + 1) 0 ≤ x.getD i 0) :
    ∀ m, m + 1 ≤ x.size → ∃ d : Int,
      (List.range m).foldlM (DLEstep x p) (⟨0, 0, links⟩ : DLEState) =
        some ⟨0, d, links⟩ ∧ (d = 0 ∨ d = -1) := by
  intro m
  induction m with
  | zero =>
    intro _
    exact ⟨0, rfl, Or.inl rfl⟩
  | succ m ih =>
    intro hm
    obtain ⟨d, hfold, hd⟩ := ih (by omega)
    obtain ⟨d2, hstep, hd2⟩ := DLEstep_down x p links d 0 m (by omega)
      (hdown m (by omega)) hd
    refine ⟨d2, ?_, hd2⟩
    rw [List.range_succ, List.foldlM_append, hfold]
    simp only [Option.bind_eq_bind, Option.some_bind, List.foldlM_cons, List.foldlM_nil,
      hstep]
    rfl

/-- For a monotone sequence (either orientation), the scan keeps the last
extremum at `0` and the links untouched over any proper prefix. -/
theorem DLE_fold_mono (x : NumericVector) (p : Nat) (links : DoublyLinkedList)
    (hmono : (∀ i, i + 1 < x.size → x.getD i 0 ≤ x.getD (i + 1) 0) ∨
      (∀ i, i + 1 < x.size → x.getD (i + 1) 0 ≤ x.getD i 0))
    (m : Nat) (hm : m + 1 ≤ x.size) :
    ∃ d : Int, (List.range m).foldlM (DLEstep x p) (⟨0, 0, links⟩ : DLEState) =
      some ⟨0, d, links⟩ := by
  rcases hmono with hup | hdown
  · obtain ⟨d, h, _⟩ := DLE_fold_up x p links hup m hm
    exact ⟨d, h⟩
  · obtain ⟨d, h, _⟩ := DLE_fold_down x p links hdown m hm
    exact ⟨d, h⟩

/-- A chain list that satisfies the invariant and is a sublist of the
two-element list `[0, n-1]` must be all of `[0, n-1]`. -/
theorem inv_sublist_pair {x : NumericVector} {p : Nat} {l : DoublyLinkedList}
    {c : List Nat} (h3 : 3 ≤ x.size) (hI : Inv x p l c)
    (hs : List.Sublist c [0, x.size - 1]) : c = [0, x.size - 1] := by
  have hlen : c.length ≤ 2 := by
    have := hs.length_le
    simpa using this
  have hne := hI.ne_nil
  have hh := hI.head_c
  have hl := hI.last_c
  rcases c with _ | ⟨u, rest⟩
  · exact absurd rfl hne
  rcases rest with _ | ⟨v, rest2⟩
  · simp at hh hl
    omega
  rcases rest2 with _ | ⟨w, rest3⟩
  · simp at hh hl
    rw [hh, hl]
  · simp [List.length_cons] at hlen

/-- **C5**: on a monotone sequence (non-decreasing or non-increasing, ties
counting as no direction change) of length at least 3, `DetectLocalExtrema`
produces the single-edge chain `0 → n-1` — the head points to `n-1`, the
last record points back to `0` and carries the full-jump weight — and the
whole computation returns `|x[0] - x[n-1]|^p`. -/
theorem pvar_monotone (x : NumericVector) (p : Nat) (h3 : 3 ≤ x.size)
    (hmono : (∀ i, i + 1 < x.size → x.getD i 0 ≤ x.getD (i + 1) 0) ∨
      (∀ i, i + 1 < x.size → x.getD (i + 1) 0 ≤ x.getD i 0)) :
    ∃ links1,
      DetectLocalExtrema x (Array.mkArray x.size ⟨0, 0, 0⟩) p = some links1 ∧
      Inv x p links1 [0, x.size - 1] ∧
      (getp links1 0).next = x.size - 1 ∧
      (getp links1 (x.size - 1)).prev = 0 ∧
      (getp links1 (x.size - 1)).pvdiff =
        pvar_diff (x.getD 0 0 - x.getD (x.size - 1) 0) p ∧
      pvar x p = pvar_diff (x.getD 0 0 - x.getD (x.size - 1) 0) p := by
  have hl1 := modifyL_eq (Array.mkArray x.size (⟨0, 0, 0⟩ : pointdata)) 0
    (fun d => { d with prev := 0, pvdiff := 0 }) (by simp; omega)
  set l1 := (Array.mkArray x.size (⟨0, 0, 0⟩ : pointdata)).set ⟨0, by simp; omega⟩
    ({ getp (Array.mkArray x.size (⟨0, 0, 0⟩ : pointdata)) 0 with prev := 0, pvdiff := 0 })
    with hl1def
  have hsz1 : l1.size = x.size := by rw [hl1def]; simp
  have hl2 := modifyL_eq l1 (x.size - 1) (fun d => { d with next := x.size })
    (by omega)
  set l2 := l1.set ⟨x.size - 1, by omega⟩ ({ getp l1 (x.size - 1) with next := x.size })
    with hl2def
  have hsz2 : l2.size = x.size := by rw [hl2def]; simp [hsz1]
  have g1 : ∀ k, getp l1 k = ⟨0, 0, 0⟩ := by
    intro k
    rw [hl1def, getp_set _ _ (by simp; omega)]
    by_cases hk : k = 0
    · rw [if_pos hk]
      simp [getp_mkArray]
    · rw [if_neg hk, getp_mkArray]
  have hgetp : ∀ k, getp l2 k =
      if k = x.size - 1 then ⟨0, x.size, 0⟩ else ⟨0, 0, 0⟩ := by
    intro k
    rw [hl2def, getp_set _ _ (by omega)]
    by_cases hk : k = x.size - 1
    · rw [if_pos hk, if_pos hk, g1 (x.size - 1)]
    · rw [if_neg hk, if_neg hk, g1 k]
  obtain ⟨d, hfold⟩ := DLE_fold_mono x p l2 hmono (x.size - 1) (by omega)
  rcases DLEstep_cases x p ⟨0, d, l2⟩ (x.size - 1) (by omega) hsz2
      (show (0 : Nat) < x.size by omega) with
    ⟨d', hst, hne⟩ | ⟨d', l1f, l2f, hst, hml1, hml2, _⟩
  · exact absurd (by omega) hne
  have hml1' : modifyL l2 0 (fun dd => { dd with next := x.size - 1 }) = some l1f := hml1
  have hml2' : modifyL l1f (x.size - 1) (fun dd =>
      { dd with
          prev := 0,
          pvdiff := pvar_diff (x.getD (x.size - 1) 0 - x.getD 0 0) p }) = some l2f := hml2
  have hread := excise_getp (show (0 : Nat) ≠ x.size - 1 by omega) hml1' hml2'
  have hfull : DetectLocalExtrema x (Array.mkArray x.size ⟨0, 0, 0⟩) p = some l2f := by
    unfold DetectLocalExtrema
    rw [hl1]
    simp only [Option.bind_eq_bind, Option.some_bind]
    rw [hl2]
    simp only [Option.bind_eq_bind, Option.some_bind]
    have hrange : List.range x.size = List.range (x.size - 1) ++ [x.size - 1] := by
      conv_lhs => rw [show x.size = (x.size - 1) + 1 by omega]
      rw [List.range_succ]
    rw [hrange, List.foldlM_append, hfold]
    simp only [Option.bind_eq_bind, Option.some_bind, List.foldlM_cons, List.foldlM_nil,
      hst]
    rfl
  have hn0 : (getp l2f 0).next = x.size - 1 := by
    rw [hread 0, if_neg (show ¬ (0 : Nat) = x.size - 1 by omega), if_pos rfl]
  have hpe : (getp l2f (x.size - 1)).prev = 0 := by
    rw [hread (x.size - 1), if_pos rfl]
  have hpv : (getp l2f (x.size - 1)).pvdiff =
      pvar_diff (x.getD (x.size - 1) 0 - x.getD 0 0) p := by
    rw [hread (x.size - 1), if_pos rfl]
  have hsz3 : l2f.size = x.size := by
    rw [size_modifyL hml2', size_modifyL hml1']
    exact hsz2
  have hInvA : Inv x p l2f [0, x.size - 1] := by
    refine ⟨hsz3, by omega, rfl, by simp, ?_, ?_, ?_, ?_, ?_⟩
    · refine List.chain'_cons.mpr ⟨⟨by omega, by omega, hn0, hpe, hpv⟩,
        List.chain'_singleton _⟩
    · rw [hread 0, if_neg (show ¬ (0 : Nat) = x.size - 1 by omega), if_pos rfl]
      show (getp l2 0).prev = 0
      rw [hgetp 0, if_neg (show ¬ (0 : Nat) = x.size - 1 by omega)]
    · rw [hread 0, if_neg (show ¬ (0 : Nat) = x.size - 1 by omega), if_pos rfl]
      show (getp l2 0).pvdiff = 0
      rw [hgetp 0, if_neg (show ¬ (0 : Nat) = x.size - 1 by omega)]
    · rw [hread (x.size - 1), if_pos rfl]
      show (getp l2 (x.size - 1)).next = x.size
      rw [hgetp (x.size - 1), if_pos rfl]
    · intro k hk
      rw [hread k]
      by_cases hke : k = x.size - 1
      · rw [if_pos hke]
        refine ⟨Nat.zero_le _, ?_⟩
        show (getp l2 (x.size - 1)).next ≤ x.size
        rw [hgetp (x.size - 1), if_pos rfl]
      · rw [if_neg hke]
        by_cases hk0 : k = 0
        · rw [if_pos hk0]
          refine ⟨?_, show x.size - 1 ≤ x.size by omega⟩
          show (getp l2 0).prev ≤ x.size
          rw [hgetp 0, if_neg (show ¬ (0 : Nat) = x.size - 1 by omega)]
          exact Nat.zero_le _
        · rw [if_neg hk0, hgetp k, if_neg hke]
          exact ⟨Nat.zero_le _, Nat.zero_le _⟩
  obtain ⟨links2, c2, hcsi, hInv2, hsub2⟩ := CheckShortIntervals_ok hInvA
  have hc2 : c2 = [0, x.size - 1] := inv_sublist_pair h3 hInv2 hsub2
  obtain ⟨links3, c3, hmrg, hInv3, hsub3⟩ := MergeIntervalsRecursively_ok hInv2 4
  rw [hc2] at hsub3
  have hc3 : c3 = [0, x.size - 1] := inv_sublist_pair h3 hInv3 hsub3
  have hch3 := hInv3.chain
  rw [hc3] at hch3
  have hedge3 : EdgeOK x p links3 0 (x.size - 1) := (List.chain'_cons.mp hch3).1
  have haccum := accumLoop_spec hInv3 (x.size + 1) 0 0
    (List.length_pos.mpr hInv3.ne_nil)
    (by have := hInv3.length_le; omega)
  rw [hInv3.cgd_zero, List.drop_zero, zero_add] at haccum
  have hpv0 : (getp links3 0).pvdiff = 0 := hInv3.head_pv
  have hsum : (c3.map (fun m => (getp links3 m).pvdiff)).sum =
      pvar_diff (x.getD 0 0 - x.getD (x.size - 1) 0) p := by
    rw [hc3]
    simp only [List.map_cons, List.map_nil, List.sum_cons, List.sum_nil]
    rw [hpv0, hedge3.2.2.2.2, pvar_diff_comm]
    ring
  have hpvarO : pvarO x p =
      some (pvar_diff (x.getD 0 0 - x.getD (x.size - 1) 0) p) := by
    unfold pvarO
    rw [if_neg (by omega)]
    simp only [hfull, hcsi, hmrg, Option.bind_eq_bind, Option.some_bind]
    rw [haccum, hsum]
  refine ⟨l2f, hfull, hInvA, hn0, hpe, ?_, ?_⟩
  · rw [hpv]
    exact pvar_diff_comm _ _ p
  · unfold pvar
    rw [hpvarO]
    rfl

/-- Witness for C5 on the constant sequence `[0, 0, 0]` with `p = 1`. -/
theorem pvar_monotone_witness :
    ∃ links1,
      DetectLocalExtrema #[(0 : ℚ), 0, 0] (Array.mkArray 3 ⟨0, 0, 0⟩) 1 = some links1 ∧
      Inv #[(0 : ℚ), 0, 0] 1 links1 [0, 2] ∧
      (getp links1 0).next = 2 ∧
      (getp links1 2).prev = 0 ∧
      (getp links1 2).pvdiff =
        pvar_diff ((#[(0 : ℚ), 0, 0] : NumericVector).getD 0 0 -
          (#[(0 : ℚ), 0, 0] : NumericVector).getD 2 0) 1 ∧
      pvar #[(0 : ℚ), 0, 0] 1 =
        pvar_diff ((#[(0 : ℚ), 0, 0] : NumericVector).getD 0 0 -
          (#[(0 : ℚ), 0, 0] : NumericVector).getD 2 0) 1 :=
  pvar_monotone #[(0 : ℚ), 0, 0] 1 (by decide)
    (Or.inl (by
      intro i hi
      have hi2 : i < 2 := by simp at hi; omega
      interval_cases i <;> decide))

end p_var_real
